import Mathlib

/-! ANSI colour escapes to SVG: tokenizer and SGR interpreter

A shallow embedding of `generateSVG` from `src/8bit.cpp` and `src/24bit.cpp`.

* A `std::string` is a `List Char`; one `Char` of the model stands for one `char` of the
  source.  The three style strings are kept as `String` values.
* `std::regex "\x1B\\[([0-9;?]*[a-zA-Z])"` together with `std::sregex_iterator` is modelled by
  `matchAt` (the pattern anchored at one position) and `regex_search` (leftmost match).
* `std::getline(ss, segment, ';')` is modelled by `getline` / `getlineAll`.
* `std::stoi` is modelled by `stoi`, its two exceptions by `StoiError`.
* `Bit8` holds what is specific to `src/8bit.cpp`, `Bit24` what is specific to `src/24bit.cpp`.
* The read loop over the lines of the file is `readLines`; the file itself is its content,
  cut into lines by `fileLines`.  Opening the files is not modelled.
* The writer is modelled by what it writes: `SvgDocument` holds the `width` and `height`
  attributes and the `<text>` elements with their `y` attribute and `<tspan>` children.
* `int` is 32 bits wide (`toInt32`), `size_t` 64 bits; `double` is IEEE 754 binary64 with
  rounding to nearest, ties to even (`roundDouble`).
-/

namespace AnsiSvg

/-! ## Data model -/

/-- The three locals `current_color`, `current_weight`, `current_style` of `generateSVG`. -/
structure Style where
  current_color : String
  current_weight : String
  current_style : String
deriving DecidableEq, Repr

/-- The `struct TextSpan` of both source files. -/
structure TextSpan where
  text : List Char
  fill_color : String
  font_weight : String
  font_style : String
deriving DecidableEq, Repr

/-- The initial values of the three style locals (source lines "Default styles"). -/
def defaultStyle : Style := ⟨"#FFFFFF", "normal", "normal"⟩

/-- The constant table `ansi_colors`, a `std::map<int, std::string>`, as the list of its
entries.  `ansi_colors.lookup code` is `none` when `ansi_colors.count(code)` is 0 and
`some (ansi_colors.at(code))` otherwise. -/
def ansi_colors : List (Int × String) :=
  [(30, "#000000"), (31, "#CD3131"), (32, "#0DBC79"), (33, "#E5E510"),
   (34, "#2472C8"), (35, "#BC3F99"), (36, "#11A8CD"), (37, "#E5E5E5"),
   (90, "#666666"), (91, "#F14C4C"), (92, "#23D18B"), (93, "#F5F543"),
   (94, "#3B8EEA"), (95, "#D670B2"), (96, "#29B8DB"), (97, "#FFFFFF")]

/-! ## Library functions used by the source -/

/-- The two exceptions `std::stoi` can throw. -/
inductive StoiError where
  | invalid_argument
  | out_of_range
deriving DecidableEq, Repr

/-- The characters `std::isspace` accepts in the "C" locale. -/
def isspace (c : Char) : Bool :=
  c == ' ' || c == '\t' || c == '\n' || c == '\x0b' || c == '\x0c' || c == '\r'

/-- Value of a run of decimal digits, most significant first. -/
def decimalValue (ds : List Char) : Nat :=
  ds.foldl (fun acc c => 10 * acc + (c.toNat - 48)) 0

/-- The sign part of `strtol`: an optional `+` or `-`. -/
def takeSign : List Char → Bool × List Char
  | [] => (false, [])
  | c :: r => if c = '-' then (true, r) else if c = '+' then (false, r) else (false, c :: r)

/-- The function `std::stoi(str)` with base 10: leading white space is skipped, an optional sign
is read, then the longest run of decimal digits; what follows the digits is ignored.  No digit
at all throws `invalid_argument`; a value that does not fit a 32-bit `int` throws
`out_of_range`. -/
def stoi (str : List Char) : Except StoiError Int :=
  let signed := takeSign (str.dropWhile isspace)
  let ds := signed.2.takeWhile Char.isDigit
  if ds.isEmpty then Except.error StoiError.invalid_argument
  else
    let v : Int := if signed.1 then - (decimalValue ds : Int) else (decimalValue ds : Int)
    if v < -2147483648 ∨ 2147483647 < v then Except.error StoiError.out_of_range
    else Except.ok v

/-- One call `std::getline(ss, segment, delim)` on a stream whose unread content is the
argument: `none` when no character can be extracted (the stream then fails and the
`while` loop ends), otherwise the segment read and the unread rest (the delimiter is
extracted and dropped). -/
def getline (delim : Char) : List Char → Option (List Char × List Char)
  | [] => none
  | c :: cs =>
    if c = delim then some ([], cs)
    else
      match getline delim cs with
      | some (seg, rest) => some (c :: seg, rest)
      | none => some ([c], [])

/-- All segments the loop `while (getline(ss, segment, ';'))` reads from a stream holding the
argument.  A trailing `;` is consumed by the call that reads the segment before it, so the
stream is then at its end and no further (empty) segment is produced. -/
def getlineAll : List Char → List (List Char)
  | [] => []
  | c :: cs =>
    if c = ';' then [] :: getlineAll cs
    else
      match getlineAll cs with
      | [] => [[c]]
      | seg :: more => (c :: seg) :: more

/-! ## The regular expression -/

/-- The escape character `\x1B`. -/
def ESC : Char := '\x1b'

/-- The character class `[0-9;?]`. -/
def isParamChar (c : Char) : Bool := c.isDigit || c == ';' || c == '?'

/-- The character class `[a-zA-Z]`. -/
def isFinalLetter (c : Char) : Bool := c.isLower || c.isUpper

/-- The pattern `\x1B\[([0-9;?]*[a-zA-Z])` anchored at the head of the input: the text of
capture group 1 and what follows the match.  The star is greedy and the two classes are
disjoint, so the pattern matches exactly when the longest run of `[0-9;?]` is followed by a
letter. -/
def matchAt : List Char → Option (List Char × List Char)
  | e :: b :: rest =>
    if e = ESC ∧ b = '[' then
      match rest.dropWhile isParamChar with
      | l :: after =>
        if isFinalLetter l then some (rest.takeWhile isParamChar ++ [l], after) else none
      | [] => none
    else none
  | _ => none

/-- One match as the loop sees it: `match.prefix()`, `match[1]` and `match.suffix()`. -/
structure Match where
  before : List Char
  group1 : List Char
  after : List Char
deriving DecidableEq, Repr

/-- The leftmost match in the input (`std::regex_search`, as each step of
`std::sregex_iterator` performs it on the text after the previous match). -/
def regex_search : List Char → Option Match
  | [] => none
  | c :: cs =>
    match matchAt (c :: cs) with
    | some (g, after) => some ⟨[], g, after⟩
    | none =>
      match regex_search cs with
      | some m => some ⟨c :: m.before, m.group1, m.after⟩
      | none => none

/-! ## The line loop shared by both variants -/

/-- The guarded `push_back`: a span for the text, unless the text is empty. -/
def flush (text : List Char) (s : Style) : List TextSpan :=
  if text.length > 0 then [⟨text, s.current_color, s.current_weight, s.current_style⟩] else []

/-- The body of `while (getline(input_file, line))` for one line: the `for` loop over the regex
matches followed by the flush of the remaining text.  `interp` is the variant's treatment of
capture group 1.  The first argument bounds the number of matches still to be visited. -/
def scanLine (interp : List Char → Style → Style) :
    Nat → List Char → Style → List TextSpan × Style
  | 0, line, s => (flush line s, s)
  | fuel + 1, line, s =>
    match regex_search line with
    | none => (flush line s, s)
    | some m =>
      let r := scanLine interp fuel m.after (interp m.group1 s)
      (flush m.before s ++ r.1, r.2)

/-- The spans of one line and the style after it.  Every match has at least three characters,
so a line has no more matches than characters. -/
def processLine (interp : List Char → Style → Style) (line : List Char) (s : Style) :
    List TextSpan × Style :=
  scanLine interp line.length line s

/-- Concatenation of the texts of a list of spans, in order. -/
def spanText (spans : List TextSpan) : List Char :=
  (spans.map TextSpan.text).flatten

/-! ## The 8-bit variant (`src/8bit.cpp`) -/

namespace Bit8

/-- The `if / else if` chain on the parsed `code`. -/
def applyCode (code : Int) (s : Style) : Style :=
  if code = 0 then defaultStyle
  else if code = 1 then { s with current_weight := "bold" }
  else if code = 3 then { s with current_style := "italic" }
  else if code = 22 then { s with current_weight := "normal" }
  else if code = 23 then { s with current_style := "normal" }
  else
    match ansi_colors.lookup code with
    | some c => { s with current_color := c }
    | none => s

/-- The body of the `while (getline(ss, code_segment, ';'))` loop: an empty segment becomes
`"0"`, then `stoi` inside `try`; both exceptions are caught and ignored. -/
def processSegment (code_segment : List Char) (s : Style) : Style :=
  let seg := if code_segment.isEmpty then ['0'] else code_segment
  match stoi seg with
  | Except.ok code => applyCode code s
  | Except.error _ => s

/-- The loop body run on each segment in turn, from left to right. -/
def processSegments (segments : List (List Char)) (s : Style) : Style :=
  segments.foldl (fun st seg => processSegment seg st) s

/-- The `while` loop over the segments of `codes_str`. -/
def processCodes (codes_str : List Char) (s : Style) : Style :=
  processSegments (getlineAll codes_str) s

/-- The treatment of `captured_code`: only a capture ending in `m` is interpreted. -/
def interpret (captured_code : List Char) (s : Style) : Style :=
  if captured_code.getLast? = some 'm' then processCodes captured_code.dropLast s else s

/-- The spans of one line and the style after it, 8-bit variant. -/
def tokenize (line : List Char) (s : Style) : List TextSpan × Style :=
  processLine interpret line s

end Bit8

/-! ## The 24-bit variant (`src/24bit.cpp`) -/

namespace Bit24

/-- The `switch (code)` of the standard codes. -/
def applyCode (code : Int) (s : Style) : Style :=
  if code = 0 then defaultStyle
  else if code = 1 then { s with current_weight := "bold" }
  else if code = 3 then { s with current_style := "italic" }
  else if code = 22 then { s with current_weight := "normal" }
  else if code = 23 then { s with current_style := "normal" }
  else
    match ansi_colors.lookup code with
    | some c => { s with current_color := c }
    | none => s

/-- One field `std::setw(2) << std::setfill('0') << std::hex << v` for an `int v`: the value is
written as the unsigned 32-bit number it converts to, in lower-case hexadecimal digits
(`std::uppercase` is not set), padded on the left with `0` to at least two characters. -/
def hexField (v : Int) : List Char :=
  let ds := Nat.toDigits 16 (v % 4294967296).toNat
  List.replicate (2 - ds.length) '0' ++ ds

/-- The string the `hex_color` stream holds after the three fields. -/
def hexColor (r g b : Int) : String :=
  String.mk ('#' :: (hexField r ++ hexField g ++ hexField b))

/-- The `for (size_t i = 0; i < codes.size(); ++i)` loop, as a recursion on the part of `codes`
from index `i` on.  `c` is `codes[i]`; the test `i + 4 < codes.size()` holds exactly when at
least four elements follow it.  When the three `stoi` calls of the group succeed the colour
is set and the loop goes on after the group (`i += 4; continue`); when one of them throws,
the exception is caught, nothing is changed and the loop goes on at `i + 1`. -/
def processCodes : List (List Char) → Style → Style
  | [], s => s
  | c :: mode :: r :: g :: b :: rest4, s =>
    match stoi (if c.isEmpty then ['0'] else c) with
    | Except.error _ => processCodes (mode :: r :: g :: b :: rest4) s
    | Except.ok code =>
      if code = 38 ∧ mode = ['2'] then
        match stoi r, stoi g, stoi b with
        | Except.ok rv, Except.ok gv, Except.ok bv =>
          processCodes rest4 { s with current_color := hexColor rv gv bv }
        | _, _, _ => processCodes (mode :: r :: g :: b :: rest4) s
      else processCodes (mode :: r :: g :: b :: rest4) (applyCode code s)
  | c :: rest, s =>
    match stoi (if c.isEmpty then ['0'] else c) with
    | Except.error _ => processCodes rest s
    | Except.ok code => processCodes rest (applyCode code s)

/-- What the loop body does with `codes[i]` when it does not decode a `38;2;R;G;B` group:
`stoi` inside `try`, then the `switch`. -/
def processSegment (c : List Char) (s : Style) : Style :=
  match stoi (if c.isEmpty then ['0'] else c) with
  | Except.ok code => applyCode code s
  | Except.error _ => s

/-- Whether the loop body, at the head of the given part of `codes`, runs the 24-bit branch to
its end: the head parses to 38, at least four elements follow, the next one is `"2"` and the
three `stoi` calls on the R, G, B elements succeed. -/
def decodesGroup : List (List Char) → Bool
  | c :: mode :: r :: g :: b :: _ =>
    match stoi (if c.isEmpty then ['0'] else c), stoi r, stoi g, stoi b with
    | Except.ok code, Except.ok _, Except.ok _, Except.ok _ => decide (code = 38 ∧ mode = ['2'])
    | _, _, _, _ => false
  | _ => false

/-- For each element of `codes`, whether the loop body runs with `i` at that element (`true`)
or the element is jumped over by `i += 4` as the sub-mode or an operand of a decoded group
(`false`).  The first argument counts the elements still to be jumped over. -/
def visitedFrom : Nat → List (List Char) → List Bool
  | _, [] => []
  | k + 1, _ :: rest => false :: visitedFrom k rest
  | 0, c :: rest => true :: visitedFrom (if decodesGroup (c :: rest) then 4 else 0) rest

/-- The elements of `codes` the loop processes as codes. -/
def visited (codes : List (List Char)) : List Bool := visitedFrom 0 codes

/-- The treatment of `captured_code`: only a capture ending in `m` is interpreted; its
parameter string is split on `;` into `codes` first. -/
def interpret (captured_code : List Char) (s : Style) : Style :=
  if captured_code.getLast? = some 'm' then
    processCodes (getlineAll captured_code.dropLast) s
  else s

/-- The spans of one line and the style after it, 24-bit variant. -/
def tokenize (line : List Char) (s : Style) : List TextSpan × Style :=
  processLine interpret line s

end Bit24

/-! ## Notions of the specification -/

/-- An escape sequence as the specification words it: ESC, `[`, zero or more characters of
the class digits / `;` / `?`, then one ASCII letter. -/
def IsEscape (e : List Char) : Prop :=
  ∃ ps l, e = ESC :: '[' :: (ps ++ [l]) ∧ (∀ c ∈ ps, isParamChar c = true) ∧
    isFinalLetter l = true

/-- The text has an escape sequence somewhere in it. -/
def ContainsEscape (t : List Char) : Prop :=
  ∃ a e b, IsEscape e ∧ t = a ++ (e ++ b)

/-- The relation `Stripped line out`: `out` is `line` with every escape sequence removed,
matches being taken leftmost and non-overlapping: an escape sequence at the head is dropped
whole, a character at which no escape sequence starts is kept. -/
inductive Stripped : List Char → List Char → Prop
  | done : Stripped [] []
  | drop (line e rest out : List Char) : IsEscape e → line = e ++ rest → Stripped rest out →
      Stripped line out
  | keep (c : Char) (cs out : List Char) : (¬ ∃ e rest, IsEscape e ∧ c :: cs = e ++ rest) →
      Stripped cs out → Stripped (c :: cs) (c :: out)

/-- An escape sequence given by its parameter characters and its final letter. -/
structure EscapeSeq where
  params : List Char
  final : Char
deriving DecidableEq, Repr

/-- The parameter characters are of the class `[0-9;?]` and the final one is a letter. -/
def EscapeSeq.WellFormed (e : EscapeSeq) : Prop :=
  (∀ c ∈ e.params, isParamChar c = true) ∧ isFinalLetter e.final = true

/-- The characters of the sequence in the line. -/
def EscapeSeq.chars (e : EscapeSeq) : List Char := ESC :: '[' :: (e.params ++ [e.final])

/-- What capture group 1 holds for the sequence. -/
def EscapeSeq.captured (e : EscapeSeq) : List Char := e.params ++ [e.final]

/-- A line written as literal texts, each followed by an escape sequence, and a last literal
text. -/
def assemble : List (List Char × EscapeSeq) → List Char → List Char
  | [], last => last
  | p :: more, last => p.1 ++ (p.2.chars ++ assemble more last)

/-- The span a literal text gives under a style; no span for an empty text. -/
def literalSpan (t : List Char) (s : Style) : List TextSpan :=
  if t = [] then [] else [⟨t, s.current_color, s.current_weight, s.current_style⟩]

/-- The spans the spec asks for: each literal text under the style in effect before the
sequence that follows it, the last literal text under the final style. -/
def styledSpans (interp : List Char → Style → Style) :
    List (List Char × EscapeSeq) → List Char → Style → List TextSpan × Style
  | [], last, s => (literalSpan last s, s)
  | p :: more, last, s =>
    let r := styledSpans interp more last (interp p.2.captured s)
    (literalSpan p.1 s ++ r.1, r.2)

/-- The SGR sequence `ESC [ params m` as it stands in a line. -/
def sgrSequence (params : List Char) : List Char := ESC :: '[' :: (params ++ ['m'])

/-- The codes that have a meaning in the source: {0, 1, 3, 22, 23, 30..37, 90..97}. -/
def ImplementedCode (n : Int) : Prop :=
  n = 0 ∨ n = 1 ∨ n = 3 ∨ n = 22 ∨ n = 23 ∨ (30 ≤ n ∧ n ≤ 37) ∨ (90 ≤ n ∧ n ≤ 97)

/-! ## The read loop and the writer, shared by both variants -/

/-- The lines the loop `while (getline(input_file, line))` reads from a file with the given
content: the pieces between line feeds; a line feed at the very end opens no further line. -/
def fileLines : List Char → List (List Char)
  | [] => []
  | c :: cs =>
    if c = '\n' then [] :: fileLines cs
    else
      match fileLines cs with
      | [] => [[c]]
      | line :: more => (c :: line) :: more

/-- The loop `while (getline(input_file, line))` on the lines still to be read.  The state is
`lines_of_spans` together with the three style locals, which are declared before the loop
and never reset in it. -/
def readLines (interp : List Char → Style → Style) :
    List (List Char) → List (List TextSpan) × Style → List (List TextSpan) × Style
  | [], st => st
  | line :: rest, st =>
    let r := processLine interp line st.2
    readLines interp rest (st.1 ++ [r.1], r.2)

/-- The vector `lines_of_spans` after the read loop, which starts from an empty vector and
the default styles. -/
def lines_of_spans (interp : List Char → Style → Style) (lines : List (List Char)) :
    List (List TextSpan) :=
  (readLines interp lines ([], defaultStyle)).1

/-- The vector `lines_of_spans` of `src/8bit.cpp`. -/
def Bit8.lines_of_spans (lines : List (List Char)) : List (List TextSpan) :=
  AnsiSvg.lines_of_spans Bit8.interpret lines

/-- The vector `lines_of_spans` of `src/24bit.cpp`. -/
def Bit24.lines_of_spans (lines : List (List Char)) : List (List TextSpan) :=
  AnsiSvg.lines_of_spans Bit24.interpret lines

/-- The `switch (c)` of the writer: the text appended to `escaped_text` for one character.
`Char.ofNat 34` is the double quote, `Char.ofNat 39` the single quote. -/
def escapeChar (c : Char) : List Char :=
  if c = '&' then "&amp;".toList
  else if c = '<' then "&lt;".toList
  else if c = '>' then "&gt;".toList
  else if c = Char.ofNat 34 then "&quot;".toList
  else if c = Char.ofNat 39 then "&apos;".toList
  else [c]

/-- The loop `for (char c : span.text)` building `escaped_text`. -/
def escapeText (text : List Char) : List Char := text.flatMap escapeChar

/-- The capture groups of the matches the `for` loop visits in a line, in order.  The first
argument bounds the number of matches, as in `scanLine`. -/
def scanCaptures : Nat → List Char → List (List Char)
  | 0, _ => []
  | fuel + 1, line =>
    match regex_search line with
    | none => []
    | some m => m.group1 :: scanCaptures fuel m.after

/-- The capture groups of all matches in a line. -/
def captures (line : List Char) : List (List Char) := scanCaptures line.length line

/-- The five entities of XML. -/
def xmlEntities : List (List Char) :=
  ["&amp;".toList, "&lt;".toList, "&gt;".toList, "&quot;".toList, "&apos;".toList]

/-- Replaces the five entities by their characters, from left to right.  The first argument
counts the characters of an entity still to be passed over. -/
def unescapeFrom : Nat → List Char → List Char
  | _, [] => []
  | k + 1, _ :: r => unescapeFrom k r
  | 0, c :: r =>
    if c = '&' then
      if r.take 4 = "amp;".toList then '&' :: unescapeFrom 4 r
      else if r.take 3 = "lt;".toList then '<' :: unescapeFrom 3 r
      else if r.take 3 = "gt;".toList then '>' :: unescapeFrom 3 r
      else if r.take 5 = "quot;".toList then Char.ofNat 34 :: unescapeFrom 5 r
      else if r.take 5 = "apos;".toList then Char.ofNat 39 :: unescapeFrom 5 r
      else c :: unescapeFrom 0 r
    else c :: unescapeFrom 0 r

/-- The text an escaped string stands for. -/
def unescapeText (escaped : List Char) : List Char := unescapeFrom 0 escaped

/-- The three style locals after the read loop has processed the first `k` lines: the style
in effect at the end of line `k` and at the start of line `k + 1` (lines counted from 1). -/
def styleAfter (interp : List Char → Style → Style) (lines : List (List Char)) (k : Nat) :
    Style :=
  (readLines interp (lines.take k) ([], defaultStyle)).2

/-! ## The canvas size and the text elements -/

/-- The inner loop `current_len += span.text.length()` over the spans of one line. -/
def current_len (line_spans : List TextSpan) : Nat :=
  line_spans.foldl (fun len span => len + span.text.length) 0

/-- The outer loop computing `max_len`: the largest `current_len` of a line, 0 when there is
no line.  Both are `size_t`; sums of lengths of strings held in memory stay below `2 ^ 64`. -/
def max_len (los : List (List TextSpan)) : Nat :=
  los.foldl (fun m line_spans => if current_len line_spans > m then current_len line_spans
    else m) 0

/-- The value an `int` takes when an integer is converted to it: 32 bits, two's complement,
wrapping around. -/
def toInt32 (v : Int) : Int := (v + 2147483648) % 4294967296 - 2147483648

/-- The initialisation `int svg_height = (lines_of_spans.size() * line_height) + 20`: the
right-hand side is computed in `size_t` (64 bits) and then converted to `int`. -/
def svg_height (los : List (List TextSpan)) : Int :=
  toInt32 (((los.length * 20 + 20) % 18446744073709551616 : Nat) : Int)

/-- Rounding to `double` (IEEE 754 binary64, round to nearest, ties to even) of the
non-negative number `a / 2 ^ 49`; the result is again given by its numerator over `2 ^ 49`.
A number with at most 53 significant bits is kept; otherwise the bits below the first 53 are
rounded away.  The numbers met here are far from the ends of the exponent range. -/
def roundDouble (a : Nat) : Nat :=
  let sh := Nat.log2 a - 52
  let q := a / 2 ^ sh
  let r := a % 2 ^ sh
  if 2 ^ sh < 2 * r ∨ (2 * r = 2 ^ sh ∧ q % 2 = 1) then (q + 1) * 2 ^ sh else q * 2 ^ sh

/-- The constant `char_width = font_size * 0.6` as a numerator over `2 ^ 49`: the literal
`0.6` is the double `5404319552844595 / 2 ^ 53`, and the product with 16 is exact. -/
def char_width : Nat := 5404319552844595

/-- The initialisation `int svg_width = (max_len * char_width) + 20`: `max_len` is converted
to `double`, the product and the sum are each rounded to `double`, and the result is
converted to `int` by dropping the fraction.  `none` stands for a result that does not fit
an `int`, for which the conversion is undefined. -/
def svg_width (los : List (List TextSpan)) : Option Int :=
  let len := roundDouble (max_len los * 2 ^ 49) / 2 ^ 49
  let product := roundDouble (len * char_width)
  let sum := roundDouble (product + 20 * 2 ^ 49)
  if sum / 2 ^ 49 ≤ 2147483647 then some ((sum / 2 ^ 49 : Nat) : Int) else none

/-- One `<tspan>` as it is written: the three attributes and the escaped text. -/
structure TSpan where
  fill : String
  font_weight : String
  font_style : String
  escaped_text : List Char
deriving DecidableEq, Repr

/-- One `<text>` element as it is written: its `y` attribute and its `<tspan>` children. -/
structure TextElement where
  y : Int
  tspans : List TSpan
deriving DecidableEq, Repr

/-- The `<tspan>` written for a span. -/
def writeSpan (span : TextSpan) : TSpan :=
  ⟨span.fill_color, span.font_weight, span.font_style, escapeText span.text⟩

/-- The content loop over `lines_of_spans`, started with the given value of `int y`: one
`<text>` element per line, then `y += line_height`.  The addition is modelled with
wrap-around; past the largest `int` C++ leaves it undefined. -/
def writeLines : Int → List (List TextSpan) → List TextElement
  | _, [] => []
  | y, line_spans :: rest => ⟨y, line_spans.map writeSpan⟩ :: writeLines (toInt32 (y + 20)) rest

/-- What the writer puts into the output file: the `width` and `height` attributes of the
root element and the `<text>` elements, the first at `y = line_height`. -/
structure SvgDocument where
  width : Option Int
  height : Int
  texts : List TextElement
deriving DecidableEq, Repr

/-- The writer part of `generateSVG`, which is the same text in both source files. -/
def writeSVG (los : List (List TextSpan)) : SvgDocument :=
  ⟨svg_width los, svg_height los, writeLines 20 los⟩

/-- The function `generateSVG` of `src/8bit.cpp` on a file with the given content, both files
being opened successfully. -/
def Bit8.generateSVG (input : List Char) : SvgDocument :=
  writeSVG (Bit8.lines_of_spans (fileLines input))

/-- The function `generateSVG` of `src/24bit.cpp` on a file with the given content, both
files being opened successfully. -/
def Bit24.generateSVG (input : List Char) : SvgDocument :=
  writeSVG (Bit24.lines_of_spans (fileLines input))

/-- The total of the span text lengths of one line. -/
def lineTotal (line_spans : List TextSpan) : Nat :=
  (line_spans.map (fun span => span.text.length)).sum

/-- The largest per-line total of span text lengths, 0 for a document without lines. -/
def largestTotal (los : List (List TextSpan)) : Nat :=
  (los.map lineTotal).foldr max 0

/-- The integer a parameter is processed as: the value `stoi` gives for it, an empty
parameter being read as `0`; `none` when `stoi` throws. -/
def codeOf (seg : List Char) : Option Int :=
  match stoi (if seg.isEmpty then ['0'] else seg) with
  | Except.ok n => some n
  | Except.error _ => none

/-- Those of the processed parameters that parse to 0, 1 or 22, in order. -/
def weightCodes (codes : List (Option Int)) : List Int :=
  codes.filterMap (fun o => o.bind (fun n => if n = 0 ∨ n = 1 ∨ n = 22 then some n else none))

/-- Last write wins on weight: the weight the last of the codes 0, 1, 22 decides, bold for 1
and normal for 0 and 22, and the prior weight when there is no such code. -/
def lastWriteWeight (prior : String) (codes : List (Option Int)) : String :=
  match (weightCodes codes).getLast? with
  | none => prior
  | some n => if n = 1 then "bold" else "normal"

/-- The parameters the loop of the 24-bit variant processes as codes: those it visits, the
sub-mode and the operands of a decoded group being left out. -/
def Bit24.processedCodes (codes : List (List Char)) : List (List Char) :=
  ((codes.zip (Bit24.visited codes)).filter (fun p => p.2)).map Prod.fst

/-- At the head of the parameter list a parameter that parses to 38 is immediately followed
by the token `2` and at least three further parameters. -/
def trueColourHead : List (List Char) → Bool
  | c :: mode :: _ :: _ :: _ :: _ => codeOf c == some 38 && mode == ['2']
  | _ => false

/-- Somewhere in the parameter list a parameter that parses to 38 is immediately followed by
the token `2` and at least three further parameters. -/
def hasTrueColourGroup : List (List Char) → Bool
  | [] => false
  | c :: rest => trueColourHead (c :: rest) || hasTrueColourGroup rest

/-- A hexadecimal digit, in either case. -/
def isHexDigit (c : Char) : Bool :=
  c.isDigit || (97 ≤ c.toNat && c.toNat ≤ 102) || (65 ≤ c.toNat && c.toNat ≤ 70)

/-- A colour of the form `#RRGGBB`: a `#` followed by exactly six hexadecimal digits. -/
def isHexColour (colour : String) : Bool :=
  match colour.data with
  | '#' :: ds => ds.length == 6 && ds.all isHexDigit
  | _ => false

/-- The three attributes a span may carry according to the specification: a colour of the
form `#RRGGBB`, the weight `normal` or `bold`, the slant `normal` or `italic`. -/
def WellFormedStyle (s : Style) : Prop :=
  isHexColour s.current_color = true ∧
    (s.current_weight = "normal" ∨ s.current_weight = "bold") ∧
    (s.current_style = "normal" ∨ s.current_style = "italic")

/-- The attributes of a span, as a style. -/
def TextSpan.style (span : TextSpan) : Style :=
  ⟨span.fill_color, span.font_weight, span.font_style⟩

/-- Every `38;2;R;G;B` group the loop of the 24-bit variant decodes in the parameter list has
its three values in 0..255.  The recursion is that of `Bit24.processCodes`. -/
def Bit24.groupsInRange : List (List Char) → Bool
  | [] => true
  | c :: mode :: r :: g :: b :: rest4 =>
    match stoi (if c.isEmpty then ['0'] else c), stoi r, stoi g, stoi b with
    | Except.ok code, Except.ok rv, Except.ok gv, Except.ok bv =>
      if code = 38 ∧ mode = ['2'] then
        decide (0 ≤ rv ∧ rv ≤ 255 ∧ 0 ≤ gv ∧ gv ≤ 255 ∧ 0 ≤ bv ∧ bv ≤ 255) &&
          Bit24.groupsInRange rest4
      else Bit24.groupsInRange (mode :: r :: g :: b :: rest4)
    | _, _, _, _ => Bit24.groupsInRange (mode :: r :: g :: b :: rest4)
  | _ :: rest => Bit24.groupsInRange rest

/-! ## Character classes and the anchored pattern -/

theorem isDigit_iff (c : Char) : c.isDigit = true ↔ 48 ≤ c.toNat ∧ c.toNat ≤ 57 := by
  simp only [Char.isDigit, Bool.and_eq_true, decide_eq_true_eq, ge_iff_le, UInt32.le_def, Char.toNat]
  rfl

theorem isFinalLetter_iff (c : Char) : isFinalLetter c = true ↔
    (97 ≤ c.toNat ∧ c.toNat ≤ 122) ∨ (65 ≤ c.toNat ∧ c.toNat ≤ 90) := by
  simp only [isFinalLetter, Char.isLower, Char.isUpper, Bool.or_eq_true, Bool.and_eq_true,
    decide_eq_true_eq, ge_iff_le, UInt32.le_def, Char.toNat]
  rfl

theorem isParamChar_iff (c : Char) : isParamChar c = true ↔
    (48 ≤ c.toNat ∧ c.toNat ≤ 57) ∨ c = ';' ∨ c = '?' := by
  simp only [isParamChar, Bool.or_eq_true, beq_iff_eq, isDigit_iff, or_assoc]

theorem letter_not_param (c : Char) (h : isFinalLetter c = true) : isParamChar c = false := by
  rw [isFinalLetter_iff] at h
  cases hp : isParamChar c with
  | false => rfl
  | true =>
    rw [isParamChar_iff] at hp
    rcases hp with hp | hp | hp
    · omega
    · subst hp; revert h; decide
    · subst hp; revert h; decide

theorem dropWhile_params (ps : List Char) (l : Char) (rest : List Char)
    (hps : ∀ c ∈ ps, isParamChar c = true) (hl : isParamChar l = false) :
    (ps ++ l :: rest).dropWhile isParamChar = l :: rest := by
  induction ps with
  | nil => simp [List.dropWhile, hl]
  | cons p ps ih =>
    have hp : isParamChar p = true := hps p (List.mem_cons_self _ _)
    rw [List.cons_append, List.dropWhile_cons, hp]
    simp only [if_true]
    exact ih (fun c hc => hps c (List.mem_cons_of_mem _ hc))

theorem takeWhile_params (ps : List Char) (l : Char) (rest : List Char)
    (hps : ∀ c ∈ ps, isParamChar c = true) (hl : isParamChar l = false) :
    (ps ++ l :: rest).takeWhile isParamChar = ps := by
  induction ps with
  | nil => simp [List.takeWhile, hl]
  | cons p ps ih =>
    have hp : isParamChar p = true := hps p (List.mem_cons_self _ _)
    rw [List.cons_append, List.takeWhile_cons, hp]
    simp only [if_true]
    rw [ih (fun c hc => hps c (List.mem_cons_of_mem _ hc))]

/-- The anchored pattern accepts every escape sequence, whatever follows it. -/
theorem matchAt_escape (ps : List Char) (l : Char) (rest : List Char)
    (hps : ∀ c ∈ ps, isParamChar c = true) (hl : isFinalLetter l = true) :
    matchAt (ESC :: '[' :: (ps ++ l :: rest)) = some (ps ++ [l], rest) := by
  have hl2 := letter_not_param l hl
  simp only [matchAt, and_self, if_true, dropWhile_params ps l rest hps hl2,
    takeWhile_params ps l rest hps hl2, hl]

/-- What the anchored pattern accepts is an escape sequence at the head of the input. -/
theorem matchAt_some (line g after : List Char) (h : matchAt line = some (g, after)) :
    ∃ ps l, (∀ c ∈ ps, isParamChar c = true) ∧ isFinalLetter l = true ∧ g = ps ++ [l] ∧
      line = ESC :: '[' :: (ps ++ l :: after) := by
  match line, h with
  | e :: b :: rest, h =>
    simp only [matchAt] at h
    split at h
    · rename_i heb
      split at h
      · rename_i l aft hd
        split at h
        · rename_i hl
          simp only [Option.some.injEq, Prod.mk.injEq] at h
          refine ⟨rest.takeWhile isParamChar, l, ?_, hl, h.1.symm, ?_⟩
          · intro c hc
            exact (List.mem_takeWhile_imp hc)
          · rw [heb.1, heb.2, ← h.2, ← hd, List.takeWhile_append_dropWhile]
        · cases h
      · cases h
    · cases h
  | [], h => simp [matchAt] at h
  | [_], h => simp [matchAt] at h

theorem matchAt_none (line : List Char) (h : matchAt line = none) :
    ¬ ∃ e rest, IsEscape e ∧ line = e ++ rest := by
  rintro ⟨e, rest, ⟨ps, l, he, hps, hl⟩, hline⟩
  subst he
  have := matchAt_escape ps l rest hps hl
  simp only [List.cons_append, List.append_assoc, List.singleton_append, List.nil_append]
    at hline
  rw [← hline, h] at this
  cases this


/-! ## The search -/

theorem IsEscape.ne_nil {e : List Char} (h : IsEscape e) : e ≠ [] := by
  rcases h with ⟨ps, l, he, -, -⟩
  rw [he]; exact List.cons_ne_nil _ _

theorem not_containsEscape_nil : ¬ ContainsEscape [] := by
  rintro ⟨a, e, b, he, h⟩
  have h1 : e = [] := by
    have := congrArg List.length h
    simp only [List.length_nil, List.length_append] at this
    exact List.length_eq_zero.mp (by omega)
  exact he.ne_nil h1

theorem not_containsEscape_tail {c : Char} {cs : List Char} (h : ¬ ContainsEscape (c :: cs)) :
    ¬ ContainsEscape cs := by
  rintro ⟨a, e, b, he, hcs⟩
  exact h ⟨c :: a, e, b, he, by rw [hcs]; rfl⟩

theorem matchAt_none_of_not_contains {t : List Char} (h : ¬ ContainsEscape t) :
    matchAt t = none := by
  cases hm : matchAt t with
  | none => rfl
  | some r =>
    obtain ⟨g, after⟩ := r
    obtain ⟨ps, l, hps, hl, -, hline⟩ := matchAt_some t g after hm
    exact absurd ⟨[], ESC :: '[' :: (ps ++ [l]), after, ⟨ps, l, rfl, hps, hl⟩,
      by rw [hline]; simp⟩ h

/-- The search finds nothing exactly in the lines that contain no escape sequence. -/
theorem regex_search_eq_none_iff (line : List Char) :
    regex_search line = none ↔ ¬ ContainsEscape line := by
  induction line with
  | nil => simp [regex_search, not_containsEscape_nil]
  | cons c cs ih =>
    constructor
    · intro h
      simp only [regex_search] at h
      split at h
      · cases h
      · rename_i hm
        split at h
        · cases h
        · rename_i hs
          rintro ⟨a, e, b, he, hline⟩
          cases a with
          | nil => exact matchAt_none _ hm ⟨e, b, he, by simpa using hline⟩
          | cons a0 a =>
            simp only [List.cons_append, List.cons.injEq] at hline
            exact (ih.mp hs) ⟨a, e, b, he, hline.2⟩
    · intro h
      simp only [regex_search, matchAt_none_of_not_contains h,
        ih.mpr (not_containsEscape_tail h)]

/-- A match starts where the search reports it: the line is the text before the match, the
escape sequence, and the text after it. -/
theorem regex_search_some (line : List Char) (m : Match) (h : regex_search line = some m) :
    ∃ ps l, (∀ c ∈ ps, isParamChar c = true) ∧ isFinalLetter l = true ∧
      m.group1 = ps ++ [l] ∧ line = m.before ++ ESC :: '[' :: (ps ++ l :: m.after) ∧
      ¬ ContainsEscape m.before := by
  induction line generalizing m with
  | nil => simp [regex_search] at h
  | cons c cs ih =>
    simp only [regex_search] at h
    split at h
    · rename_i g after hm
      obtain ⟨ps, l, hps, hl, hg, hline⟩ := matchAt_some _ g after hm
      simp only [Option.some.injEq] at h
      subst h
      exact ⟨ps, l, hps, hl, hg, by simpa using hline, not_containsEscape_nil⟩
    · rename_i hm
      split at h
      · rename_i m1 hs
        simp only [Option.some.injEq] at h
        subst h
        obtain ⟨ps, l, hps, hl, hg, hline, hbefore⟩ := ih m1 hs
        refine ⟨ps, l, hps, hl, hg, by simp only [List.cons_append]; rw [← hline], ?_⟩
        rintro ⟨a, e, b, he, hb⟩
        cases a with
        | nil =>
          refine matchAt_none _ hm ⟨e, b ++ ESC :: '[' :: (ps ++ l :: m1.after), he, ?_⟩
          simp only [List.nil_append] at hb
          rw [hline, ← List.cons_append, hb, List.append_assoc]
        | cons a0 a =>
          simp only [List.cons_append, List.cons.injEq] at hb
          exact hbefore ⟨a, e, b, he, hb.2⟩
      · cases h

theorem regex_search_after_length (line : List Char) (m : Match)
    (h : regex_search line = some m) : m.after.length < line.length := by
  obtain ⟨ps, l, -, -, -, hline, -⟩ := regex_search_some line m h
  rw [hline]
  simp only [List.length_append, List.length_cons]
  omega

theorem esc_not_mem_params {ps : List Char} (hps : ∀ c ∈ ps, isParamChar c = true) :
    ESC ∉ ps := fun h => by
  have := hps ESC h
  revert this; decide

/-- An escape sequence that begins inside `t` and is found in `t ++ ESC :: x` ends inside `t`. -/
theorem matchAt_append_esc (c : Char) (t x : List Char)
    (h : ¬ ContainsEscape (c :: t)) : matchAt (c :: t ++ ESC :: x) = none := by
  cases hm : matchAt (c :: t ++ ESC :: x) with
  | none => rfl
  | some r =>
    exfalso
    obtain ⟨g, after⟩ := r
    obtain ⟨ps, l, hps, hl, -, hline⟩ := matchAt_some _ g after hm
    have hline2 : (c :: t) ++ ESC :: x = (ESC :: '[' :: (ps ++ [l])) ++ after := by
      rw [hline]; simp
    rcases List.append_eq_append_iff.mp hline2 with ⟨a, ha, hb⟩ | ⟨a, ha, -⟩
    · cases a with
      | nil =>
        exact h ⟨[], ESC :: '[' :: (ps ++ [l]), [], ⟨ps, l, rfl, hps, hl⟩, by
          rw [ha]; simp⟩
      | cons a0 a =>
        simp only [List.cons_append, List.cons.injEq] at hb
        have ha0 : a0 = ESC := hb.1.symm
        subst ha0
        simp only [List.cons_append, List.cons.injEq] at ha
        have hmem : ESC ∈ '[' :: (ps ++ [l]) := by
          rw [ha.2]; simp
        simp only [List.mem_cons, List.mem_append, List.mem_singleton, List.not_mem_nil,
          or_false] at hmem
        rcases hmem with h1 | h1 | h1
        · revert h1; decide
        · exact esc_not_mem_params hps h1
        · rw [← h1] at hl; revert hl; decide
    · exact h ⟨[], ESC :: '[' :: (ps ++ [l]), a, ⟨ps, l, rfl, hps, hl⟩, by rw [ha]; simp⟩

/-- The search skips a text that contains no escape sequence and stops at the escape
sequence that follows it. -/
theorem regex_search_append (t ps : List Char) (l : Char) (rest : List Char)
    (ht : ¬ ContainsEscape t) (hps : ∀ c ∈ ps, isParamChar c = true)
    (hl : isFinalLetter l = true) :
    regex_search (t ++ ESC :: '[' :: (ps ++ l :: rest)) = some ⟨t, ps ++ [l], rest⟩ := by
  induction t with
  | nil =>
    simp only [List.nil_append, regex_search, matchAt_escape ps l rest hps hl]
  | cons c t ih =>
    have h1 := matchAt_append_esc c t ('[' :: (ps ++ l :: rest)) ht
    rw [List.cons_append] at h1
    rw [List.cons_append, regex_search, h1]
    simp only [ih (not_containsEscape_tail ht)]

/-! ## The line loop -/

theorem flush_eq_literalSpan (t : List Char) (s : Style) : flush t s = literalSpan t s := by
  cases t with
  | nil => rfl
  | cons c t => simp [flush, literalSpan]

theorem spanText_flush (t : List Char) (s : Style) : spanText (flush t s) = t := by
  cases t with
  | nil => rfl
  | cons c t => simp [flush, spanText]

theorem spanText_append (a b : List TextSpan) : spanText (a ++ b) = spanText a ++ spanText b := by
  simp [spanText]

/-- Any two bounds that are at least the length of the line give the same result. -/
theorem scanLine_fuel (interp : List Char → Style → Style) :
    ∀ (f1 f2 : Nat) (line : List Char) (s : Style), line.length ≤ f1 → line.length ≤ f2 →
      scanLine interp f1 line s = scanLine interp f2 line s := by
  intro f1
  induction f1 with
  | zero =>
    intro f2 line s h1 _
    have hl : line = [] := List.length_eq_zero.mp (by omega)
    subst hl
    cases f2 <;> simp [scanLine, regex_search]
  | succ n ih =>
    intro f2 line s h1 h2
    cases hs : regex_search line with
    | none => cases f2 <;> simp [scanLine, hs]
    | some m =>
      have hlt := regex_search_after_length line m hs
      cases f2 with
      | zero => omega
      | succ k =>
        simp only [scanLine, hs]
        rw [ih k m.after (interp m.group1 s) (by omega) (by omega)]

/-- The loop equation of `processLine`: no match, flush the line; otherwise flush the text
before the first match, interpret the match and go on with the text after it. -/
theorem processLine_eq (interp : List Char → Style → Style) (line : List Char) (s : Style) :
    processLine interp line s =
      match regex_search line with
      | none => (flush line s, s)
      | some m =>
        (flush m.before s ++ (processLine interp m.after (interp m.group1 s)).1,
          (processLine interp m.after (interp m.group1 s)).2) := by
  unfold processLine
  cases hs : regex_search line with
  | none => cases hlen : line.length <;> simp [scanLine, hs]
  | some m =>
    have hlt := regex_search_after_length line m hs
    cases hlen : line.length with
    | zero => omega
    | succ k =>
      simp only [scanLine, hs]
      rw [scanLine_fuel interp k m.after.length m.after _ (by omega) (le_refl _)]

theorem processLine_none (interp : List Char → Style → Style) (line : List Char) (s : Style)
    (h : ¬ ContainsEscape line) : processLine interp line s = (flush line s, s) := by
  rw [processLine_eq, (regex_search_eq_none_iff line).mpr h]

theorem processLine_append (interp : List Char → Style → Style) (t : List Char)
    (e : EscapeSeq) (rest : List Char) (s : Style) (ht : ¬ ContainsEscape t)
    (he : e.WellFormed) :
    processLine interp (t ++ (e.chars ++ rest)) s =
      (flush t s ++ (processLine interp rest (interp e.captured s)).1,
        (processLine interp rest (interp e.captured s)).2) := by
  have h := regex_search_append t e.params e.final rest ht he.1 he.2
  have hl : t ++ (e.chars ++ rest) = t ++ ESC :: '[' :: (e.params ++ e.final :: rest) := by
    simp [EscapeSeq.chars]
  rw [processLine_eq, hl, h]
  rfl

theorem processLine_assemble (interp : List Char → Style → Style)
    (pieces : List (List Char × EscapeSeq)) (last : List Char)
    (hp : ∀ p ∈ pieces, ¬ ContainsEscape p.1 ∧ p.2.WellFormed) (hl : ¬ ContainsEscape last) :
    ∀ s, processLine interp (assemble pieces last) s = styledSpans interp pieces last s := by
  induction pieces with
  | nil =>
    intro s
    simp only [assemble, styledSpans, processLine_none interp last s hl, flush_eq_literalSpan]
  | cons p more ih =>
    intro s
    have h1 := hp p (List.mem_cons_self _ _)
    have ih2 := ih (fun q hq => hp q (List.mem_cons_of_mem _ hq))
    simp only [assemble, styledSpans]
    rw [processLine_append interp p.1 p.2 _ s h1.1 h1.2, ih2, flush_eq_literalSpan]

/-- Every line is an assembly of literal texts and escape sequences. -/
theorem assemble_complete : ∀ (n : Nat) (line : List Char), line.length ≤ n →
    ∃ pieces last, (∀ p ∈ pieces, ¬ ContainsEscape p.1 ∧ p.2.WellFormed) ∧
      ¬ ContainsEscape last ∧ line = assemble pieces last := by
  intro n
  induction n with
  | zero =>
    intro line h
    have hl : line = [] := List.length_eq_zero.mp (by omega)
    exact ⟨[], [], by simp, not_containsEscape_nil, by rw [hl]; rfl⟩
  | succ n ih =>
    intro line h
    cases hs : regex_search line with
    | none =>
      exact ⟨[], line, by simp, (regex_search_eq_none_iff line).mp hs, rfl⟩
    | some m =>
      obtain ⟨ps, l, hps, hl, hg, hline, hb⟩ := regex_search_some line m hs
      have hlt := regex_search_after_length line m hs
      obtain ⟨pieces, last, h1, h2, h3⟩ := ih m.after (by omega)
      refine ⟨(m.before, ⟨ps, l⟩) :: pieces, last, ?_, h2, ?_⟩
      · intro p hp
        rcases List.mem_cons.mp hp with hp | hp
        · subst hp; exact ⟨hb, hps, hl⟩
        · exact h1 p hp
      · simp only [assemble, EscapeSeq.chars, ← h3]
        rw [hline]; simp

/-! ### Removing the escape sequences -/

theorem isEscape_unique {e e2 r r2 : List Char} (he : IsEscape e) (he2 : IsEscape e2)
    (h : e ++ r = e2 ++ r2) : r = r2 := by
  obtain ⟨ps, l, rfl, hps, hl⟩ := he
  obtain ⟨ps2, l2, rfl, hps2, hl2⟩ := he2
  have h1 := matchAt_escape ps l r hps hl
  have h2 := matchAt_escape ps2 l2 r2 hps2 hl2
  have h3 : ESC :: '[' :: (ps ++ l :: r) = ESC :: '[' :: (ps2 ++ l2 :: r2) := by
    simpa using h
  rw [h3, h2] at h1
  simp only [Option.some.injEq, Prod.mk.injEq] at h1
  exact h1.2.symm

/-- The line without its escape sequences is determined by the line. -/
theorem Stripped.unique {line a b : List Char} (ha : Stripped line a) (hb : Stripped line b) :
    a = b := by
  induction ha generalizing b with
  | done =>
    cases hb with
    | done => rfl
    | drop _ e rest _ he hline _ =>
      have : e = [] := (List.append_eq_nil.mp hline.symm).1
      exact absurd this he.ne_nil
  | drop line e rest out he hline _ ih =>
    cases hb with
    | done =>
      have : e = [] := (List.append_eq_nil.mp hline.symm).1
      exact absurd this he.ne_nil
    | drop _ e2 rest2 _ he2 hline2 hr2 =>
      have hr : rest = rest2 := isEscape_unique he he2 (hline.symm.trans hline2)
      subst hr
      exact ih hr2
    | keep c cs out2 hno _ => exact absurd ⟨e, rest, he, hline⟩ hno
  | keep c cs out hno _ ih =>
    cases hb with
    | drop _ e2 rest2 _ he2 hline2 _ => exact absurd ⟨e2, rest2, he2, hline2⟩ hno
    | keep _ _ out2 _ hr2 => rw [ih hr2]

theorem stripped_of_not_contains : ∀ (line : List Char), ¬ ContainsEscape line →
    Stripped line line := by
  intro line
  induction line with
  | nil => intro _; exact Stripped.done
  | cons c cs ih =>
    intro h
    exact Stripped.keep c cs cs (matchAt_none _ (matchAt_none_of_not_contains h))
      (ih (not_containsEscape_tail h))

theorem stripped_append (t : List Char) (e rest out : List Char) (ht : ¬ ContainsEscape t)
    (he : IsEscape e) (hr : Stripped rest out) : Stripped (t ++ (e ++ rest)) (t ++ out) := by
  induction t with
  | nil => exact Stripped.drop _ e rest out he rfl hr
  | cons c t ih =>
    obtain ⟨ps, l, rfl, hps, hl⟩ := he
    refine Stripped.keep c _ _ (matchAt_none _ ?_) (ih (not_containsEscape_tail ht))
    have := matchAt_append_esc c t ('[' :: (ps ++ [l]) ++ rest) ht
    simpa using this

theorem stripped_processLine (interp : List Char → Style → Style) :
    ∀ (n : Nat) (line : List Char) (s : Style), line.length ≤ n →
      Stripped line (spanText (processLine interp line s).1) := by
  intro n
  induction n with
  | zero =>
    intro line s h
    have hl : line = [] := List.length_eq_zero.mp (by omega)
    subst hl
    rw [processLine_none interp [] s not_containsEscape_nil, spanText_flush]
    exact Stripped.done
  | succ n ih =>
    intro line s h
    cases hs : regex_search line with
    | none =>
      have hc := (regex_search_eq_none_iff line).mp hs
      rw [processLine_none interp line s hc, spanText_flush]
      exact stripped_of_not_contains line hc
    | some m =>
      obtain ⟨ps, l, hps, hl, hg, hline, hb⟩ := regex_search_some line m hs
      have hlt := regex_search_after_length line m hs
      rw [processLine_eq, hs]
      simp only [spanText_append, spanText_flush]
      have key := stripped_append m.before (ESC :: '[' :: (ps ++ [l])) m.after _ hb
        ⟨ps, l, rfl, hps, hl⟩ (ih m.after (interp m.group1 s) (by omega))
      have hline2 : line = m.before ++ (ESC :: '[' :: (ps ++ [l]) ++ m.after) := by
        rw [hline]; simp
      rw [hline2]
      exact key

/-! ## A single SGR sequence -/

/-- A line that is one escape sequence gives no span; its style is what the variant makes of
the capture. -/
theorem processLine_escape (interp : List Char → Style → Style) (e : EscapeSeq)
    (he : e.WellFormed) (s : Style) :
    processLine interp e.chars s = ([], interp e.captured s) := by
  have h := processLine_append interp [] e [] s not_containsEscape_nil he
  simp only [List.nil_append, List.append_nil] at h
  rw [h, processLine_none interp [] _ not_containsEscape_nil]
  rfl

theorem getLast?_snoc_m (ps : List Char) : (ps ++ ['m']).getLast? = some 'm' := by
  simp

theorem tokenize8_sgrSequence (ps : List Char) (hps : ∀ c ∈ ps, isParamChar c = true)
    (s : Style) : Bit8.tokenize (sgrSequence ps) s = ([], Bit8.processCodes ps s) := by
  have h := processLine_escape Bit8.interpret ⟨ps, 'm'⟩ ⟨hps, (by decide : isFinalLetter 'm' = true)⟩ s
  simp only [EscapeSeq.chars, EscapeSeq.captured] at h
  rw [Bit8.tokenize, sgrSequence, h, Bit8.interpret, getLast?_snoc_m, if_pos rfl,
    List.dropLast_concat]

theorem tokenize24_sgrSequence (ps : List Char) (hps : ∀ c ∈ ps, isParamChar c = true)
    (s : Style) :
    Bit24.tokenize (sgrSequence ps) s = ([], Bit24.processCodes (getlineAll ps) s) := by
  have h := processLine_escape Bit24.interpret ⟨ps, 'm'⟩ ⟨hps, (by decide : isFinalLetter 'm' = true)⟩ s
  simp only [EscapeSeq.chars, EscapeSeq.captured] at h
  rw [Bit24.tokenize, sgrSequence, h, Bit24.interpret, getLast?_snoc_m, if_pos rfl,
    List.dropLast_concat]

/-- The loop of the 24-bit variant at an element that does not head a decoded group: the
element is processed as a standard code and the loop goes on at the next element. -/
theorem Bit24.processCodes_cons_plain (c : List Char) (rest : List (List Char)) (s : Style)
    (h : Bit24.decodesGroup (c :: rest) = false) :
    Bit24.processCodes (c :: rest) s = Bit24.processCodes rest (Bit24.processSegment c s) := by
  cases hc : stoi (if c.isEmpty = true then ['0'] else c) with
  | error e =>
    rcases rest with _ | ⟨m, _ | ⟨r, _ | ⟨g, _ | ⟨b, rest4⟩⟩⟩⟩ <;>
      simp only [Bit24.processCodes, Bit24.processSegment, hc]
  | ok code =>
    rcases rest with _ | ⟨m, _ | ⟨r, _ | ⟨g, _ | ⟨b, rest4⟩⟩⟩⟩
    · simp only [Bit24.processCodes, Bit24.processSegment, hc]
    · simp only [Bit24.processCodes, Bit24.processSegment, hc]
    · simp only [Bit24.processCodes, Bit24.processSegment, hc]
    · simp only [Bit24.processCodes, Bit24.processSegment, hc]
    · have hstep : Bit24.processSegment c s = Bit24.applyCode code s := by
        simp only [Bit24.processSegment, hc]
      rw [hstep, Bit24.processCodes]
      simp only [Bit24.decodesGroup, hc] at h
      simp only [hc]
      have h38s : Bit24.applyCode 38 s = s := rfl
      by_cases h38 : code = 38 ∧ m = ['2']
      · rw [if_pos h38]
        cases hr : stoi r <;> cases hg : stoi g <;> cases hb : stoi b <;>
          simp only [hr, hg, hb, h38, and_self, decide_True] at h ⊢ <;>
          first
            | exact absurd h (by decide)
            | rw [h38s]
      · rw [if_neg h38]

/-- The loop of the 24-bit variant at an element that heads a decoded group: the colour is
set from the three operands and the loop goes on after the group. -/
theorem Bit24.processCodes_cons_group (c m r g b : List Char) (rest4 : List (List Char))
    (s : Style) (rv gv bv : Int)
    (hc : stoi (if c.isEmpty then ['0'] else c) = Except.ok 38) (hm : m = ['2'])
    (hr : stoi r = Except.ok rv) (hg : stoi g = Except.ok gv) (hb : stoi b = Except.ok bv) :
    Bit24.processCodes (c :: m :: r :: g :: b :: rest4) s =
      Bit24.processCodes rest4 { s with current_color := Bit24.hexColor rv gv bv } := by
  simp only [Bit24.processCodes, hc, hm, hr, hg, hb, and_self, if_true]

/-! ## The number parser -/

theorem digit_not_space (d : Char) (hd : d.isDigit = true) : isspace d = false := by
  cases hsp : isspace d with
  | false => rfl
  | true =>
    simp only [isspace, Bool.or_eq_true, beq_iff_eq] at hsp
    rcases hsp with ((((h | h) | h) | h) | h) | h <;> (subst h; revert hd; decide)

theorem digit_not_sign (d : Char) (hd : d.isDigit = true) : d ≠ '-' ∧ d ≠ '+' := by
  constructor <;> (intro h; subst h; revert hd; decide)

/-- The function `stoi` on a non-empty string of decimal digits: the value of the digits, or
`out_of_range` when that value does not fit an `int`. -/
theorem stoi_digits (ds : List Char) (hne : ds ≠ []) (hds : ∀ c ∈ ds, c.isDigit = true) :
    stoi ds = if 2147483647 < decimalValue ds then Except.error StoiError.out_of_range
      else Except.ok (decimalValue ds : Int) := by
  cases ds with
  | nil => exact absurd rfl hne
  | cons d ds =>
    have hd := hds d (List.mem_cons_self _ _)
    have h1 : (d :: ds).dropWhile isspace = d :: ds := by
      rw [List.dropWhile_cons, digit_not_space d hd]; rfl
    have h2 : takeSign (d :: ds) = (false, d :: ds) := by
      simp only [takeSign, (digit_not_sign d hd).1, (digit_not_sign d hd).2, if_false]
    have h3 : (d :: ds).takeWhile Char.isDigit = d :: ds :=
      List.takeWhile_eq_self_iff.mpr hds
    simp only [stoi, h1, h2, h3, List.isEmpty_cons, Bool.false_eq_true, if_false]
    by_cases hbig : 2147483647 < decimalValue (d :: ds)
    · rw [if_pos hbig, if_pos (Or.inr (by exact_mod_cast hbig))]
    · rw [if_neg hbig, if_neg]
      push_neg
      constructor
      · have : (0 : Int) ≤ (decimalValue (d :: ds) : Int) := Int.natCast_nonneg _
        omega
      · exact_mod_cast not_lt.mp hbig

/-- A token that starts with `?` has no digits for `stoi` to read. -/
theorem stoi_question (rest : List Char) :
    stoi ('?' :: rest) = Except.error StoiError.invalid_argument := by
  have h1 : ('?' :: rest).dropWhile isspace = '?' :: rest := by
    rw [List.dropWhile_cons]; rfl
  have h2 : takeSign ('?' :: rest) = (false, '?' :: rest) := rfl
  have h3 : ('?' :: rest).takeWhile Char.isDigit = [] := by
    rw [List.takeWhile_cons]; rfl
  simp only [stoi, h1, h2, h3, List.isEmpty_nil, if_true]

/-! ## Codes without a meaning -/

theorem ansi_colors_none (n : Int) (h : ¬ ImplementedCode n) : ansi_colors.lookup n = none := by
  unfold ImplementedCode at h
  rw [List.lookup_eq_none_iff]
  intro p hp
  simp only [ansi_colors, List.mem_cons, List.mem_singleton, List.not_mem_nil, or_false] at hp
  have hkey : (30 ≤ p.1 ∧ p.1 ≤ 37) ∨ (90 ≤ p.1 ∧ p.1 ≤ 97) := by
    rcases hp with h | h | h | h | h | h | h | h | h | h | h | h | h | h | h | h <;>
      (subst h; decide)
  simp only [bne_iff_ne, ne_eq]
  omega

theorem applyCode8_unimplemented (n : Int) (h : ¬ ImplementedCode n) (s : Style) :
    Bit8.applyCode n s = s := by
  have hc := ansi_colors_none n h
  unfold ImplementedCode at h
  simp only [Bit8.applyCode, hc]
  split_ifs <;> first | rfl | omega

theorem applyCode24_unimplemented (n : Int) (h : ¬ ImplementedCode n) (s : Style) :
    Bit24.applyCode n s = s := by
  have hc := ansi_colors_none n h
  unfold ImplementedCode at h
  simp only [Bit24.applyCode, hc]
  split_ifs <;> first | rfl | omega

/-! ## Splitting the parameter string -/

/-- The list `getlineAll` is what the `while (getline(ss, segment, ';'))` loop reads: nothing
when the first call fails, otherwise the segment of the first call followed by what the loop
reads from the rest of the stream. -/
theorem getlineAll_eq_getline (l : List Char) :
    getlineAll l =
      match getline ';' l with
      | none => []
      | some (seg, rest) => seg :: getlineAll rest := by
  induction l with
  | nil => rfl
  | cons c cs ih =>
    by_cases hc : c = ';'
    · simp only [getlineAll, getline, hc, if_true]
    · simp only [getlineAll, getline, hc, if_false]
      rw [ih]
      cases hg : getline ';' cs with
      | none => rfl
      | some r => rfl

theorem getlineAll_append_semicolon (seg rest : List Char) (h : ';' ∉ seg) :
    getlineAll (seg ++ ';' :: rest) = seg :: getlineAll rest := by
  induction seg with
  | nil => simp [getlineAll]
  | cons c seg ih =>
    have hc : c ≠ ';' := fun hc => h (hc ▸ List.mem_cons_self _ _)
    have ih2 := ih (fun hm => h (List.mem_cons_of_mem _ hm))
    rw [List.cons_append, getlineAll, if_neg hc, ih2]

theorem getlineAll_single (seg : List Char) (h : ';' ∉ seg) (hne : seg ≠ []) :
    getlineAll seg = [seg] := by
  induction seg with
  | nil => exact absurd rfl hne
  | cons c seg ih =>
    have hc : c ≠ ';' := fun hc => h (hc ▸ List.mem_cons_self _ _)
    cases seg with
    | nil => simp [getlineAll, hc]
    | cons d seg =>
      have ih2 := ih (fun hm => h (List.mem_cons_of_mem _ hm)) (List.cons_ne_nil _ _)
      rw [getlineAll, if_neg hc, ih2]

theorem digit_ne_semicolon (ds : List Char) (hds : ∀ c ∈ ds, c.isDigit = true) : ';' ∉ ds :=
  fun h => absurd (hds ';' h) (by decide)

/-! ## Decoded groups of the 24-bit variant -/

theorem Bit24.decodesGroup_eq_true (l : List (List Char)) (h : Bit24.decodesGroup l = true) :
    ∃ c r g b rest4 rv gv bv, l = c :: ['2'] :: r :: g :: b :: rest4 ∧
      stoi (if c.isEmpty then ['0'] else c) = Except.ok 38 ∧ stoi r = Except.ok rv ∧
      stoi g = Except.ok gv ∧ stoi b = Except.ok bv := by
  rcases l with _ | ⟨c, _ | ⟨m, _ | ⟨r, _ | ⟨g, _ | ⟨b, rest4⟩⟩⟩⟩⟩
  · simp [Bit24.decodesGroup] at h
  · simp [Bit24.decodesGroup] at h
  · simp [Bit24.decodesGroup] at h
  · simp [Bit24.decodesGroup] at h
  · simp [Bit24.decodesGroup] at h
  · simp only [Bit24.decodesGroup] at h
    split at h
    · rename_i code rv gv bv hc hr hg hb
      simp only [decide_eq_true_eq] at h
      refine ⟨c, r, g, b, rest4, rv, gv, bv, by rw [h.2], ?_, hr, hg, hb⟩
      rw [hc, h.1]
    · cases h

theorem Bit24.decodesGroup_of_code (c : List Char) (rest : List (List Char)) (n : Int)
    (hc : stoi (if c.isEmpty then ['0'] else c) = Except.ok n) (hn : n ≠ 38) :
    Bit24.decodesGroup (c :: rest) = false := by
  cases hd : Bit24.decodesGroup (c :: rest) with
  | false => rfl
  | true =>
    obtain ⟨c2, r, g, b, rest4, rv, gv, bv, hl, hc2, -, -, -⟩ :=
      Bit24.decodesGroup_eq_true _ hd
    simp only [List.cons.injEq] at hl
    rw [← hl.1, hc] at hc2
    simp only [Except.ok.injEq] at hc2
    exact absurd hc2 hn

theorem Bit24.decodesGroup_of_mode (c m : List Char) (rest : List (List Char))
    (hm : m ≠ ['2']) : Bit24.decodesGroup (c :: m :: rest) = false := by
  cases hd : Bit24.decodesGroup (c :: m :: rest) with
  | false => rfl
  | true =>
    obtain ⟨c2, r, g, b, rest4, rv, gv, bv, hl, -, -, -, -⟩ :=
      Bit24.decodesGroup_eq_true _ hd
    simp only [List.cons.injEq] at hl
    exact absurd hl.2.1 hm

/-! ## Reset -/

theorem Bit8.processSegments_append (xs ys : List (List Char)) (s : Style) :
    Bit8.processSegments (xs ++ ys) s = Bit8.processSegments ys (Bit8.processSegments xs s) := by
  simp [Bit8.processSegments, List.foldl_append]

theorem Bit8.processSegments_cons (x : List Char) (ys : List (List Char)) (s : Style) :
    Bit8.processSegments (x :: ys) s = Bit8.processSegments ys (Bit8.processSegment x s) := rfl

theorem Bit24.reset_absorbs (z : List Char) (ys : List (List Char))
    (hz : stoi (if z.isEmpty then ['0'] else z) = Except.ok 0) :
    ∀ (n : Nat) (xs : List (List Char)) (s : Style), xs.length ≤ n →
      (Bit24.visitedFrom 0 (xs ++ z :: ys))[xs.length]? = some true →
      Bit24.processCodes (xs ++ z :: ys) s = Bit24.processCodes ys defaultStyle := by
  have hbase : ∀ s, Bit24.processCodes (z :: ys) s = Bit24.processCodes ys defaultStyle := by
    intro s
    rw [Bit24.processCodes_cons_plain z ys s (Bit24.decodesGroup_of_code z ys 0 hz (by decide))]
    simp only [Bit24.processSegment, hz]
    rfl
  intro n
  induction n with
  | zero =>
    intro xs s hlen _
    have hx : xs = [] := List.length_eq_zero.mp (by omega)
    subst hx
    exact hbase s
  | succ n ih =>
    intro xs s hlen hv
    cases xs with
    | nil => exact hbase s
    | cons c xs =>
      cases hd : Bit24.decodesGroup (c :: (xs ++ z :: ys)) with
      | false =>
        rw [List.cons_append, Bit24.processCodes_cons_plain _ _ s hd]
        apply ih xs _ (by simpa using hlen)
        simpa [Bit24.visitedFrom, hd] using hv
      | true =>
        obtain ⟨c2, r, g, b, rest4, rv, gv, bv, hl, hc, hr, hg, hb⟩ :=
          Bit24.decodesGroup_eq_true _ hd
        simp only [List.cons.injEq] at hl
        obtain ⟨hc2, hrest⟩ := hl
        subst hc2
        rcases xs with _ | ⟨x1, _ | ⟨x2, _ | ⟨x3, _ | ⟨x4, xs⟩⟩⟩⟩
        · simp only [List.nil_append, List.cons.injEq] at hrest
          rw [hrest.1] at hz
          have h2 : stoi (if ['2'].isEmpty then ['0'] else ['2']) = Except.ok 2 := rfl
          rw [h2] at hz
          exact absurd (Except.ok.inj hz) (by decide)
        · simp only [List.cons_append, List.nil_append, List.cons.injEq] at hrest
          obtain ⟨h1, h2, h3⟩ := hrest
          subst h1 h2
          simp only [List.cons_append, List.nil_append] at hd
          simp [Bit24.visitedFrom, hd] at hv
        · simp only [List.cons_append, List.nil_append, List.cons.injEq] at hrest
          obtain ⟨h1, h2, h3, h4⟩ := hrest
          subst h1 h2 h3
          simp only [List.cons_append, List.nil_append] at hd
          simp [Bit24.visitedFrom, hd] at hv
        · simp only [List.cons_append, List.nil_append, List.cons.injEq] at hrest
          obtain ⟨h1, h2, h3, h4, h5⟩ := hrest
          subst h1 h2 h3 h4
          simp only [List.cons_append, List.nil_append] at hd
          simp [Bit24.visitedFrom, hd] at hv
        · simp only [List.cons_append, List.cons.injEq] at hrest
          obtain ⟨h1, h2, h3, h4, h5⟩ := hrest
          subst h1 h2 h3 h4
          simp only [List.cons_append]
          rw [Bit24.processCodes_cons_group c ['2'] _ _ _ _ s rv gv bv hc rfl hr hg hb]
          apply ih xs _ (by simp at hlen; omega)
          simp only [List.cons_append] at hd
          simpa [Bit24.visitedFrom, hd] using hv

theorem processSegment8_digits (ds : List Char) (hne : ds ≠ [])
    (hds : ∀ c ∈ ds, c.isDigit = true) (hn : ¬ ImplementedCode (decimalValue ds)) (s : Style) :
    Bit8.processSegment ds s = s := by
  have he : ds.isEmpty = false := by cases ds <;> simp at hne ⊢
  simp only [Bit8.processSegment, he, Bool.false_eq_true, if_false, stoi_digits ds hne hds]
  split
  · rename_i code hc
    split at hc
    · cases hc
    · simp only [Except.ok.injEq] at hc
      rw [← hc]
      exact applyCode8_unimplemented _ hn s
  · rfl

theorem processSegment24_digits (ds : List Char) (hne : ds ≠ [])
    (hds : ∀ c ∈ ds, c.isDigit = true) (hn : ¬ ImplementedCode (decimalValue ds)) (s : Style) :
    Bit24.processSegment ds s = s := by
  have he : ds.isEmpty = false := by cases ds <;> simp at hne ⊢
  simp only [Bit24.processSegment, he, Bool.false_eq_true, if_false, stoi_digits ds hne hds]
  split
  · rename_i code hc
    split at hc
    · cases hc
    · simp only [Except.ok.injEq] at hc
      rw [← hc]
      exact applyCode24_unimplemented _ hn s
  · rfl

theorem Bit24.processCodes_single (c : List Char) (s : Style) :
    Bit24.processCodes [c] s = Bit24.processSegment c s := by
  rw [Bit24.processCodes_cons_plain c [] s rfl]
  rfl

theorem processCodes8_palette (ps : List Char) (s : Style) :
    Bit8.processCodes ("38;5;".toList ++ ps) s = Bit8.processCodes ps s := by
  have h : getlineAll ("38;5;".toList ++ ps) = "38".toList :: "5".toList :: getlineAll ps := by
    have h1 := getlineAll_append_semicolon "38".toList ("5;".toList ++ ps) (by decide)
    have h2 := getlineAll_append_semicolon "5".toList ps (by decide)
    exact h1.trans (by rw [← h2]; rfl)
  rw [Bit8.processCodes, h, Bit8.processSegments_cons, Bit8.processSegments_cons]
  rfl

theorem processCodes24_palette (ps : List Char) (s : Style) :
    Bit24.processCodes (getlineAll ("38;5;".toList ++ ps)) s =
      Bit24.processCodes (getlineAll ps) s := by
  have h : getlineAll ("38;5;".toList ++ ps) = "38".toList :: "5".toList :: getlineAll ps := by
    have h1 := getlineAll_append_semicolon "38".toList ("5;".toList ++ ps) (by decide)
    have h2 := getlineAll_append_semicolon "5".toList ps (by decide)
    exact h1.trans (by rw [← h2]; rfl)
  rw [h, Bit24.processCodes_cons_plain _ _ s
      (Bit24.decodesGroup_of_mode _ "5".toList _ (by decide)),
    Bit24.processCodes_cons_plain _ _ _
      (Bit24.decodesGroup_of_code "5".toList _ 5 rfl (by decide))]
  rfl

theorem params_append {a b : List Char} (ha : ∀ c ∈ a, isParamChar c = true)
    (hb : ∀ c ∈ b, isParamChar c = true) : ∀ c ∈ a ++ b, isParamChar c = true := by
  intro c hc
  rcases List.mem_append.mp hc with h | h
  · exact ha c h
  · exact hb c h

/-! ## The read loop -/

/-- The loop started with spans already collected keeps them in front. -/
theorem readLines_acc (interp : List Char → Style → Style) (lines : List (List Char)) :
    ∀ (acc : List (List TextSpan)) (s : Style),
      readLines interp lines (acc, s) =
        (acc ++ (readLines interp lines ([], s)).1, (readLines interp lines ([], s)).2) := by
  induction lines with
  | nil => intro acc s; simp [readLines]
  | cons line rest ih =>
    intro acc s
    simp only [readLines]
    rw [ih (acc ++ _), ih ([] ++ _)]
    simp

theorem readLines_cons (interp : List Char → Style → Style) (line : List Char)
    (rest : List (List Char)) (s : Style) :
    readLines interp (line :: rest) ([], s) =
      ((processLine interp line s).1 ::
          (readLines interp rest ([], (processLine interp line s).2)).1,
        (readLines interp rest ([], (processLine interp line s).2)).2) := by
  simp only [readLines]
  rw [readLines_acc]
  simp

theorem readLines_append (interp : List Char → Style → Style) (a b : List (List Char)) :
    ∀ (s : Style), readLines interp (a ++ b) ([], s) =
      ((readLines interp a ([], s)).1 ++
          (readLines interp b ([], (readLines interp a ([], s)).2)).1,
        (readLines interp b ([], (readLines interp a ([], s)).2)).2) := by
  induction a with
  | nil => intro s; simp [readLines]
  | cons line rest ih =>
    intro s
    rw [List.cons_append, readLines_cons, readLines_cons, ih]
    simp

theorem readLines_length (interp : List Char → Style → Style) (lines : List (List Char)) :
    ∀ (s : Style), (readLines interp lines ([], s)).1.length = lines.length := by
  induction lines with
  | nil => intro s; rfl
  | cons line rest ih => intro s; rw [readLines_cons]; simp [ih]

theorem flush_nonempty (t : List Char) (s : Style) :
    ∀ sp ∈ flush t s, 1 ≤ sp.text.length := by
  intro sp hsp
  unfold flush at hsp
  split at hsp
  · rename_i hlen
    simp only [List.mem_singleton] at hsp
    rw [hsp]
    exact hlen
  · cases hsp

theorem processLine_nonempty (interp : List Char → Style → Style) :
    ∀ (n : Nat) (line : List Char) (s : Style), line.length ≤ n →
      ∀ sp ∈ (processLine interp line s).1, 1 ≤ sp.text.length := by
  intro n
  induction n with
  | zero =>
    intro line s h sp hsp
    have hl : line = [] := List.length_eq_zero.mp (by omega)
    subst hl
    rw [processLine_none interp [] s not_containsEscape_nil] at hsp
    exact flush_nonempty [] s sp hsp
  | succ n ih =>
    intro line s h sp hsp
    rw [processLine_eq] at hsp
    cases hs : regex_search line with
    | none =>
      rw [hs] at hsp
      exact flush_nonempty line s sp hsp
    | some m =>
      rw [hs] at hsp
      have hlt := regex_search_after_length line m hs
      rcases List.mem_append.mp hsp with h1 | h1
      · exact flush_nonempty _ s sp h1
      · exact ih m.after _ (by omega) sp h1

theorem readLines_nonempty (interp : List Char → Style → Style) (lines : List (List Char)) :
    ∀ (s : Style), ∀ spans ∈ (readLines interp lines ([], s)).1, ∀ sp ∈ spans,
      1 ≤ sp.text.length := by
  induction lines with
  | nil => intro s spans h; cases h
  | cons line rest ih =>
    intro s spans h sp hsp
    rw [readLines_cons] at h
    rcases List.mem_cons.mp h with h1 | h1
    · rw [h1] at hsp
      exact processLine_nonempty interp line.length line s (le_refl _) sp hsp
    · exact ih _ spans h1 sp hsp

theorem styleAfter_succ (interp : List Char → Style → Style) (lines : List (List Char))
    (k : Nat) (hk : k < lines.length) :
    (lines_of_spans interp lines)[k]? =
        some (processLine interp lines[k] (styleAfter interp lines k)).1 ∧
      styleAfter interp lines (k + 1) =
        (processLine interp lines[k] (styleAfter interp lines k)).2 := by
  have hsplit : lines = lines.take k ++ lines[k] :: lines.drop (k + 1) := by
    rw [← List.drop_eq_getElem_cons hk, List.take_append_drop]
  have hlen : (readLines interp (lines.take k) ([], defaultStyle)).1.length = k := by
    rw [readLines_length, List.length_take]; omega
  constructor
  · unfold lines_of_spans styleAfter
    conv_lhs => rw [hsplit]
    rw [readLines_append, readLines_cons]
    simp only
    rw [List.getElem?_append_right (by omega), hlen]
    simp
  · unfold styleAfter
    have htake : lines.take (k + 1) = lines.take k ++ [lines[k]] := by
      rw [List.take_succ, List.getElem?_eq_getElem hk]; rfl
    rw [htake, readLines_append, readLines_cons]
    rfl

/-! ## Escaping -/

theorem escapeText_cons (c : Char) (t : List Char) :
    escapeText (c :: t) = escapeChar c ++ escapeText t := by
  simp [escapeText]

/-- What the writer appends for a character is one of the five entities or the character
itself, which is then none of the five special characters. -/
theorem escapeChar_cases (c : Char) :
    (escapeChar c ∈ xmlEntities) ∨
      (escapeChar c = [c] ∧ c ≠ '&' ∧ c ≠ '<' ∧ c ≠ '>' ∧ c ≠ Char.ofNat 34 ∧
        c ≠ Char.ofNat 39) := by
  unfold escapeChar
  by_cases h1 : c = '&'
  · left; rw [if_pos h1]; decide
  · by_cases h2 : c = '<'
    · left; rw [if_neg h1, if_pos h2]; decide
    · by_cases h3 : c = '>'
      · left; rw [if_neg h1, if_neg h2, if_pos h3]; decide
      · by_cases h4 : c = Char.ofNat 34
        · left; rw [if_neg h1, if_neg h2, if_neg h3, if_pos h4]; decide
        · by_cases h5 : c = Char.ofNat 39
          · left; rw [if_neg h1, if_neg h2, if_neg h3, if_neg h4, if_pos h5]; decide
          · right
            rw [if_neg h1, if_neg h2, if_neg h3, if_neg h4, if_neg h5]
            exact ⟨rfl, h1, h2, h3, h4, h5⟩

/-- An entity starts with `&`, has no other `&` and none of the four other special
characters. -/
theorem entity_shape (ent : List Char) (h : ent ∈ xmlEntities) :
    ∃ body, ent = '&' :: body ∧ '&' ∉ body ∧
      ∀ c ∈ ent, c ≠ '<' ∧ c ≠ '>' ∧ c ≠ Char.ofNat 34 ∧ c ≠ Char.ofNat 39 := by
  simp only [xmlEntities, List.mem_cons, List.mem_singleton, List.not_mem_nil, or_false] at h
  rcases h with h | h | h | h | h <;> subst h
  · exact ⟨"amp;".toList, rfl, by decide, by decide⟩
  · exact ⟨"lt;".toList, rfl, by decide, by decide⟩
  · exact ⟨"gt;".toList, rfl, by decide, by decide⟩
  · exact ⟨"quot;".toList, rfl, by decide, by decide⟩
  · exact ⟨"apos;".toList, rfl, by decide, by decide⟩

theorem escapeText_no_special (text : List Char) :
    ∀ c ∈ escapeText text, c ≠ '<' ∧ c ≠ '>' ∧ c ≠ Char.ofNat 34 ∧ c ≠ Char.ofNat 39 := by
  intro c hc
  simp only [escapeText, List.mem_flatMap] at hc
  obtain ⟨x, -, hx⟩ := hc
  rcases escapeChar_cases x with h | ⟨h, -, h2, h3, h4, h5⟩
  · obtain ⟨body, -, -, hall⟩ := entity_shape _ h
    exact hall c hx
  · rw [h, List.mem_singleton] at hx
    subst hx
    exact ⟨h2, h3, h4, h5⟩

/-- An `&` in an entity followed by more text is the first character of the entity or lies
in the text that follows. -/
theorem amp_in_entity (body before after rest : List Char) (hb : '&' ∉ body)
    (h : before ++ '&' :: after = ('&' :: body) ++ rest) :
    before = [] ∨ ∃ mid, before = ('&' :: body) ++ mid ∧ rest = mid ++ '&' :: after := by
  rcases List.append_eq_append_iff.mp h with ⟨a, ha, hr⟩ | ⟨a, ha, hr⟩
  · cases before with
    | nil => left; rfl
    | cons b0 before =>
      right
      cases a with
      | nil =>
        refine ⟨[], by rw [ha]; simp, by rw [hr]; simp⟩
      | cons a0 a =>
        exfalso
        simp only [List.cons_append, List.cons.injEq] at ha hr
        have : '&' ∈ body := by rw [ha.2, ← hr.1]; simp
        exact hb this
  · right
    exact ⟨a, ha, hr⟩

theorem escapeText_amp (text : List Char) :
    ∀ (before after : List Char), escapeText text = before ++ '&' :: after →
      ∃ ent ∈ xmlEntities, ent <+: '&' :: after := by
  induction text with
  | nil =>
    intro before after h
    simp [escapeText] at h
  | cons c t ih =>
    intro before after h
    rw [escapeText_cons] at h
    rcases escapeChar_cases c with hent | ⟨hc, hamp, -⟩
    · obtain ⟨body, hbody, hnot, -⟩ := entity_shape _ hent
      rw [hbody] at h
      rcases amp_in_entity body before after _ hnot h.symm with hb | ⟨mid, -, hmid⟩
      · subst hb
        simp only [List.nil_append] at h
        refine ⟨_, hent, ?_⟩
        rw [hbody, ← h]
        exact List.prefix_append _ _
      · exact ih mid after hmid
    · rw [hc] at h
      cases before with
      | nil =>
        simp only [List.nil_append, List.singleton_append, List.cons.injEq] at h
        exact absurd h.1 hamp
      | cons b0 before =>
        simp only [List.cons_append, List.singleton_append, List.cons.injEq] at h
        exact ih before after h.2

theorem unescapeFrom_entity (ent : List Char) (h : ent ∈ xmlEntities) (rest : List Char) :
    unescapeFrom 0 (ent ++ rest) =
      (if ent = "&amp;".toList then '&' else if ent = "&lt;".toList then '<'
        else if ent = "&gt;".toList then '>'
        else if ent = "&quot;".toList then Char.ofNat 34 else Char.ofNat 39)
      :: unescapeFrom 0 rest := by
  simp only [xmlEntities, List.mem_cons, List.mem_singleton, List.not_mem_nil, or_false] at h
  rcases h with h | h | h | h | h <;> subst h <;> rfl

theorem unescapeText_escapeText (text : List Char) : unescapeText (escapeText text) = text := by
  unfold unescapeText
  induction text with
  | nil => rfl
  | cons c t ih =>
    rw [escapeText_cons]
    unfold escapeChar
    by_cases h1 : c = '&'
    · rw [if_pos h1, h1]
      show unescapeFrom 0 ("&amp;".toList ++ escapeText t) = _
      rw [unescapeFrom_entity _ (by decide), ih]; rfl
    · by_cases h2 : c = '<'
      · rw [if_neg h1, if_pos h2, h2, unescapeFrom_entity _ (by decide), ih]; rfl
      · by_cases h3 : c = '>'
        · rw [if_neg h1, if_neg h2, if_pos h3, h3, unescapeFrom_entity _ (by decide), ih]; rfl
        · by_cases h4 : c = Char.ofNat 34
          · rw [if_neg h1, if_neg h2, if_neg h3, if_pos h4, h4,
              unescapeFrom_entity _ (by decide), ih]; rfl
          · by_cases h5 : c = Char.ofNat 39
            · rw [if_neg h1, if_neg h2, if_neg h3, if_neg h4, if_pos h5, h5,
                unescapeFrom_entity _ (by decide), ih]; rfl
            · rw [if_neg h1, if_neg h2, if_neg h3, if_neg h4, if_neg h5]
              rw [List.singleton_append, unescapeFrom, if_neg h1, ih]

/-! ## Rounding to `double` -/

/-- The closest double to `0.6` has the numerator `char_width` over `2 ^ 53`: it is less than
half a unit away from `0.6 * 2 ^ 53`. -/
theorem char_width_nearest :
    2 * (3 * 2 ^ 53 - 5 * char_width) < 5 ∧ 5 * char_width ≤ 3 * 2 ^ 53 ∧
      2 ^ 52 ≤ char_width ∧ char_width < 2 ^ 53 := by
  decide

/-- The number of low bits rounded away is 0 for a number below `2 ^ 53`; otherwise the
number lies between `2 ^ 52` and `2 ^ 53` times the weight of the last bit kept. -/
theorem roundDouble_shift (a : Nat) :
    (a < 2 ^ 53 ∧ Nat.log2 a - 52 = 0) ∨
      (2 ^ (Nat.log2 a - 52) * 2 ^ 52 ≤ a ∧ a < 2 ^ (Nat.log2 a - 52) * 2 ^ 53) := by
  by_cases h0 : a = 0
  · left; subst h0; simp [Nat.log2_zero]
  · by_cases h : Nat.log2 a ≤ 52
    · left
      refine ⟨?_, by omega⟩
      exact (Nat.log2_lt h0).mp (by omega)
    · right
      have h1 := Nat.log2_self_le h0
      have h2 := @Nat.lt_log2_self a
      have e1 : Nat.log2 a = (Nat.log2 a - 52) + 52 := by omega
      have e2 : Nat.log2 a + 1 = (Nat.log2 a - 52) + 53 := by omega
      rw [e1, Nat.pow_add] at h1
      rw [e2, Nat.pow_add] at h2
      exact ⟨h1, h2⟩

/-- The rounded number is a multiple of the weight of the last bit kept and differs from the
number by at most half of that weight. -/
theorem roundDouble_near (a : Nat) :
    2 ^ (Nat.log2 a - 52) ∣ roundDouble a ∧
      2 * roundDouble a ≤ 2 * a + 2 ^ (Nat.log2 a - 52) ∧
      2 * a ≤ 2 * roundDouble a + 2 ^ (Nat.log2 a - 52) := by
  have hx : 0 < 2 ^ (Nat.log2 a - 52) := Nat.pow_pos (by decide)
  have hdiv := Nat.div_add_mod a (2 ^ (Nat.log2 a - 52))
  have hmod := Nat.mod_lt a hx
  unfold roundDouble
  simp only
  generalize 2 ^ (Nat.log2 a - 52) = x at *
  generalize a / x = q at *
  generalize a % x = r at *
  have e1 : (q + 1) * x = x * q + x := by rw [Nat.add_mul, Nat.one_mul, Nat.mul_comm]
  have e2 : q * x = x * q := Nat.mul_comm q x
  split
  · rename_i hc
    refine ⟨Nat.dvd_mul_left _ _, ?_, ?_⟩
    · rw [e1]; rcases hc with hc | hc <;> omega
    · rw [e1]; rcases hc with hc | hc <;> omega
  · rename_i hc
    refine ⟨Nat.dvd_mul_left _ _, ?_, ?_⟩
    · rw [e2]; omega
    · rw [e2]
      by_cases h1 : x < 2 * r
      · exact absurd (Or.inl h1) hc
      · omega

/-- A number that is a multiple of the weight of the last bit kept is a double. -/
theorem roundDouble_exact (a : Nat) (h : 2 ^ (Nat.log2 a - 52) ∣ a) : roundDouble a = a := by
  have hx : 0 < 2 ^ (Nat.log2 a - 52) := Nat.pow_pos (by decide)
  have hr : a % 2 ^ (Nat.log2 a - 52) = 0 := Nat.mod_eq_zero_of_dvd h
  unfold roundDouble
  simp only [hr]
  rw [if_neg (by omega)]
  exact Nat.div_mul_cancel h

theorem roundDouble_small (a : Nat) (h : a < 2 ^ 53) : roundDouble a = a := by
  rcases roundDouble_shift a with ⟨-, h1⟩ | ⟨h1, -⟩
  · exact roundDouble_exact a (by rw [h1]; exact Nat.one_dvd _)
  · have hx : 0 < 2 ^ (Nat.log2 a - 52) := Nat.pow_pos (by decide)
    have : 2 ^ 52 ≤ 2 ^ (Nat.log2 a - 52) * 2 ^ 52 := Nat.le_mul_of_pos_left _ hx
    by_cases hs : Nat.log2 a - 52 = 0
    · exact roundDouble_exact a (by rw [hs]; exact Nat.one_dvd _)
    · have h2 : 2 ^ 1 ≤ 2 ^ (Nat.log2 a - 52) :=
        Nat.pow_le_pow_right (by decide) (by omega)
      omega

/-- The weight of the last bit kept divides `2 ^ k` when the number is below `2 ^ (k + 53)`. -/
theorem roundDouble_shift_dvd (a k : Nat) (h : a < 2 ^ (k + 53)) :
    2 ^ (Nat.log2 a - 52) ∣ 2 ^ k := by
  apply Nat.pow_dvd_pow
  by_cases h0 : a = 0
  · subst h0; simp [Nat.log2_zero]
  · have := (Nat.log2_lt h0).mpr h
    omega

/-- The rounding error is at most the number divided by `2 ^ 53`. -/
theorem roundDouble_error (a : Nat) :
    2 ^ 53 * roundDouble a ≤ 2 ^ 53 * a + a ∧ 2 ^ 53 * a ≤ 2 ^ 53 * roundDouble a + a := by
  obtain ⟨-, h1, h2⟩ := roundDouble_near a
  rcases roundDouble_shift a with ⟨-, hs⟩ | ⟨hs, -⟩
  · rw [hs] at h1 h2
    have : roundDouble a = a := by omega
    rw [this]; omega
  · generalize 2 ^ (Nat.log2 a - 52) = x at *
    generalize roundDouble a = r at *
    omega

/-- The conversion of a length below `2 ^ 53` to `double` is exact. -/
theorem roundDouble_length (n : Nat) (hn : n < 2 ^ 53) :
    roundDouble (n * 2 ^ 49) / 2 ^ 49 = n := by
  have hlt : n * 2 ^ 49 < 2 ^ (49 + 53) := by
    rw [Nat.pow_add, Nat.mul_comm]
    exact Nat.mul_lt_mul_of_pos_left hn (Nat.pow_pos (by decide))
  have hd := roundDouble_shift_dvd (n * 2 ^ 49) 49 hlt
  rw [roundDouble_exact _ (Nat.dvd_trans hd (Nat.dvd_mul_left _ _))]
  exact Nat.mul_div_cancel n (Nat.pow_pos (by decide))

/-- The product `max_len * char_width` for a length that is a multiple of 5 rounds to the
whole number `9.6 * max_len`. -/
theorem roundDouble_product_exact (k : Nat) (hk : 5 * k ≤ 223696211) :
    roundDouble (5 * k * char_width) = 48 * k * 2 ^ 49 := by
  by_cases hk0 : k = 0
  · subst hk0; exact roundDouble_small 0 (by decide)
  have ha : 5 * k * char_width + k = 48 * k * 2 ^ 49 := by
    unfold char_width; omega
  obtain ⟨hdvd, h1, h2⟩ := roundDouble_near (5 * k * char_width)
  have hlt : 5 * k * char_width < 2 ^ (53 + 53) := by unfold char_width; omega
  have hx53 := roundDouble_shift_dvd (5 * k * char_width) 53 hlt
  have hxA : 2 ^ (Nat.log2 (5 * k * char_width) - 52) ∣ 48 * k * 2 ^ 49 := by
    have : 48 * k * 2 ^ 49 = 3 * k * 2 ^ 53 := by omega
    rw [this]
    exact Nat.dvd_trans hx53 (Nat.dvd_mul_left _ _)
  have hbig : 2 * k < 2 ^ (Nat.log2 (5 * k * char_width) - 52) := by
    rcases roundDouble_shift (5 * k * char_width) with ⟨hs, -⟩ | ⟨-, hs⟩
    · unfold char_width at hs; omega
    · generalize 2 ^ (Nat.log2 (5 * k * char_width) - 52) = x at *
      unfold char_width at hs
      omega
  obtain ⟨m1, hm1⟩ := hdvd
  obtain ⟨m2, hm2⟩ := hxA
  generalize 2 ^ (Nat.log2 (5 * k * char_width) - 52) = x at *
  generalize roundDouble (5 * k * char_width) = r at *
  generalize 5 * k * char_width = a at *
  have hm : m1 = m2 := by
    rcases Nat.lt_trichotomy m1 m2 with h | h | h
    · exfalso
      have : x * (m1 + 1) ≤ x * m2 := Nat.mul_le_mul_left x h
      rw [Nat.mul_add, Nat.mul_one] at this
      omega
    · exact h
    · exfalso
      have : x * (m2 + 1) ≤ x * m1 := Nat.mul_le_mul_left x h
      rw [Nat.mul_add, Nat.mul_one] at this
      omega
  rw [hm1, hm2, hm]

/-- The value of `(max_len * char_width) + 20` in `double` arithmetic, with its fraction
dropped, is 20 plus the integer part of `9.6 * max_len`, for every length whose result fits
an `int`. -/
theorem width_formula (n : Nat) (hn : n ≤ 223696211) :
    roundDouble (roundDouble (n * char_width) + 20 * 2 ^ 49) / 2 ^ 49 = 20 + 48 * n / 5 := by
  by_cases h5 : n % 5 = 0
  · obtain ⟨k, hk⟩ : ∃ k, n = 5 * k := ⟨n / 5, by omega⟩
    subst hk
    rw [roundDouble_product_exact k hn]
    have hsum : 48 * k * 2 ^ 49 + 20 * 2 ^ 49 = (48 * k + 20) * 2 ^ 49 := by omega
    have hlt : (48 * k + 20) * 2 ^ 49 < 2 ^ (49 + 53) := by omega
    have hd := roundDouble_shift_dvd _ 49 hlt
    rw [hsum, roundDouble_exact _ (Nat.dvd_trans hd (Nat.dvd_mul_left _ _)),
      Nat.mul_div_cancel _ (Nat.pow_pos (by decide))]
    omega
  · obtain ⟨e1, e2⟩ := roundDouble_error (n * char_width)
    obtain ⟨e3, e4⟩ := roundDouble_error (roundDouble (n * char_width) + 20 * 2 ^ 49)
    generalize roundDouble (roundDouble (n * char_width) + 20 * 2 ^ 49) = r2 at *
    generalize roundDouble (n * char_width) = r1 at *
    unfold char_width at e1 e2
    obtain ⟨k, j, hj1, hj4, hk⟩ : ∃ k j, 1 ≤ j ∧ j ≤ 4 ∧ n = 5 * k + j :=
      ⟨n / 5, n % 5, by omega, by omega, by omega⟩
    subst hk
    have hlow : (20 + 48 * (5 * k + j) / 5) * 2 ^ 49 ≤ r2 := by
      rcases (by omega : j = 1 ∨ j = 2 ∨ j = 3 ∨ j = 4) with h | h | h | h <;> subst h <;> omega
    have hhigh : r2 < (20 + 48 * (5 * k + j) / 5 + 1) * 2 ^ 49 := by
      rcases (by omega : j = 1 ∨ j = 2 ∨ j = 3 ∨ j = 4) with h | h | h | h <;> subst h <;> omega
    exact Nat.div_eq_of_lt_le hlow hhigh

/-! ## The canvas size -/

theorem current_len_eq (line_spans : List TextSpan) : current_len line_spans = lineTotal line_spans := by
  have h : ∀ (l : List TextSpan) (n : Nat),
      l.foldl (fun len span => len + span.text.length) n = n + lineTotal l := by
    intro l
    induction l with
    | nil => intro n; simp [lineTotal]
    | cons sp l ih =>
      intro n
      rw [List.foldl_cons, ih]
      simp only [lineTotal, List.map_cons, List.sum_cons]
      omega
  rw [current_len, h, Nat.zero_add]

/-- The loop computing `max_len` finds the largest per-line total. -/
theorem max_len_eq (los : List (List TextSpan)) : max_len los = largestTotal los := by
  have h : ∀ (l : List (List TextSpan)) (m : Nat),
      l.foldl (fun m line_spans =>
        if current_len line_spans > m then current_len line_spans else m) m =
        max m (largestTotal l) := by
    intro l
    induction l with
    | nil => intro m; simp [largestTotal]
    | cons sp l ih =>
      intro m
      rw [List.foldl_cons, ih]
      simp only [largestTotal, List.map_cons, List.foldr_cons, current_len_eq]
      split <;> omega
  rw [max_len, h, Nat.zero_max]

theorem lineTotal_le_largestTotal (los : List (List TextSpan)) :
    ∀ line_spans ∈ los, lineTotal line_spans ≤ largestTotal los := by
  induction los with
  | nil => intro _ h; cases h
  | cons a l ih =>
    intro x hx
    simp only [largestTotal, List.map_cons, List.foldr_cons]
    rcases List.mem_cons.mp hx with h | h
    · subst h; exact Nat.le_max_left _ _
    · exact Nat.le_trans (ih x h) (Nat.le_max_right _ _)

theorem largestTotal_le (los : List (List TextSpan)) (b : Nat)
    (h : ∀ line_spans ∈ los, lineTotal line_spans ≤ b) : largestTotal los ≤ b := by
  induction los with
  | nil => simp [largestTotal]
  | cons a l ih =>
    simp only [largestTotal, List.map_cons, List.foldr_cons]
    exact Nat.max_le.mpr ⟨h a (List.mem_cons_self _ _),
      ih (fun x hx => h x (List.mem_cons_of_mem _ hx))⟩

theorem Stripped.length_le {line out : List Char} (h : Stripped line out) :
    out.length ≤ line.length := by
  induction h with
  | done => exact Nat.le_refl _
  | drop line e rest out _ hline _ ih =>
    rw [hline, List.length_append]; omega
  | keep c cs out _ _ ih => simp only [List.length_cons]; omega

theorem lineTotal_eq_spanText (spans : List TextSpan) :
    lineTotal spans = (spanText spans).length := by
  induction spans with
  | nil => rfl
  | cons sp l ih =>
    have h : spanText (sp :: l) = sp.text ++ spanText l := by simp [spanText]
    rw [h, List.length_append, ← ih]
    simp [lineTotal]

/-- The spans of a line have no more characters than the line. -/
theorem lineTotal_processLine (interp : List Char → Style → Style) (line : List Char)
    (s : Style) : lineTotal (processLine interp line s).1 ≤ line.length := by
  rw [lineTotal_eq_spanText]
  exact (stripped_processLine interp line.length line s (Nat.le_refl _)).length_le

theorem readLines_lineTotal (interp : List Char → Style → Style) (b : Nat)
    (lines : List (List Char)) (h : ∀ line ∈ lines, line.length ≤ b) :
    ∀ (s : Style), ∀ spans ∈ (readLines interp lines ([], s)).1, lineTotal spans ≤ b := by
  induction lines with
  | nil => intro s spans hs; cases hs
  | cons line rest ih =>
    intro s spans hs
    rw [readLines_cons] at hs
    rcases List.mem_cons.mp hs with h1 | h1
    · rw [h1]
      exact Nat.le_trans (lineTotal_processLine interp line s) (h line (List.mem_cons_self _ _))
    · exact ih (fun l hl => h l (List.mem_cons_of_mem _ hl)) _ spans h1

theorem toInt32_of_fits (v : Int) (h0 : 0 ≤ v) (h1 : v ≤ 2147483647) : toInt32 v = v := by
  unfold toInt32; omega

theorem svg_height_eq (los : List (List TextSpan)) (h : los.length ≤ 107374181) :
    svg_height los = 20 * (los.length : Int) + 20 := by
  unfold svg_height
  have h1 : (los.length * 20 + 20) % 18446744073709551616 = los.length * 20 + 20 :=
    Nat.mod_eq_of_lt (by omega)
  rw [h1, toInt32_of_fits _ (by omega) (by omega)]
  push_cast
  omega

theorem svg_width_eq (los : List (List TextSpan)) (h : largestTotal los ≤ 223696211) :
    svg_width los = some (20 + ((48 * largestTotal los / 5 : Nat) : Int)) := by
  unfold svg_width
  simp only [max_len_eq]
  rw [roundDouble_length _ (by omega : largestTotal los < 2 ^ 53), width_formula _ h,
    if_pos (by omega)]
  push_cast
  rfl

/-- The `<text>` elements: the element of line `k` (from 0) has the baseline `y + 20 * k`
and the spans of that line, as long as the baselines fit an `int`. -/
theorem writeLines_getElem (los : List (List TextSpan)) :
    ∀ (y : Int) (k : Nat) (hk : k < los.length), 0 ≤ y →
      y + 20 * (los.length : Int) ≤ 2147483647 →
      (writeLines y los)[k]? = some ⟨y + 20 * (k : Int), los[k].map writeSpan⟩ := by
  induction los with
  | nil => intro y k hk; cases hk
  | cons a l ih =>
    intro y k hk hy hfit
    simp only [List.length_cons, Nat.cast_add, Nat.cast_one] at hfit
    cases k with
    | zero => simp [writeLines]
    | succ k =>
      simp only [writeLines, List.getElem?_cons_succ, List.getElem_cons_succ]
      rw [toInt32_of_fits _ (by omega) (by omega)]
      rw [ih (y + 20) k (by simpa using hk) (by omega) (by omega)]
      congr 2
      push_cast
      omega

theorem writeLines_length (los : List (List TextSpan)) :
    ∀ (y : Int), (writeLines y los).length = los.length := by
  induction los with
  | nil => intro y; rfl
  | cons a l ih => intro y; simp [writeLines, ih]

theorem writeSVG_height (interp : List Char → Style → Style) (lines : List (List Char)) :
    (writeSVG (lines_of_spans interp lines)).height =
      toInt32 (((lines.length * 20 + 20) % 18446744073709551616 : Nat) : Int) := by
  show svg_height _ = _
  unfold svg_height lines_of_spans
  rw [readLines_length]

/-! ## The loop of the 24-bit variant -/

theorem Bit24.decodesGroup_of_parts (c r g b : List Char) (rest4 : List (List Char))
    (rv gv bv : Int) (hc : stoi (if c.isEmpty then ['0'] else c) = Except.ok 38)
    (hr : stoi r = Except.ok rv) (hg : stoi g = Except.ok gv) (hb : stoi b = Except.ok bv) :
    Bit24.decodesGroup (c :: ['2'] :: r :: g :: b :: rest4) = true := by
  simp only [Bit24.decodesGroup, hc, hr, hg, hb]
  decide

/-- Induction along the loop of the 24-bit variant: a property of parameter lists holds for
all of them when it holds for the empty list, passes from the rest to a list whose head
does not head a decoded group, and from what follows a decoded group to the whole list. -/
theorem Bit24.codes_induction {P : List (List Char) → Prop} (hnil : P [])
    (hplain : ∀ c rest, Bit24.decodesGroup (c :: rest) = false → P rest → P (c :: rest))
    (hgroup : ∀ c r g b rest4 rv gv bv,
      stoi (if c.isEmpty then ['0'] else c) = Except.ok 38 → stoi r = Except.ok rv →
      stoi g = Except.ok gv → stoi b = Except.ok bv → P rest4 →
      P (c :: ['2'] :: r :: g :: b :: rest4)) :
    ∀ codes, P codes := by
  have h : ∀ (n : Nat) (codes : List (List Char)), codes.length ≤ n → P codes := by
    intro n
    induction n with
    | zero =>
      intro codes hlen
      have : codes = [] := List.length_eq_zero.mp (by omega)
      rw [this]; exact hnil
    | succ n ih =>
      intro codes hlen
      cases codes with
      | nil => exact hnil
      | cons c rest =>
        cases hd : Bit24.decodesGroup (c :: rest) with
        | false => exact hplain c rest hd (ih rest (by simpa using hlen))
        | true =>
          obtain ⟨c2, r, g, b, rest4, rv, gv, bv, hl, hc, hr, hg, hb⟩ :=
            Bit24.decodesGroup_eq_true _ hd
          rw [hl]
          refine hgroup c2 r g b rest4 rv gv bv hc hr hg hb (ih rest4 ?_)
          have := congrArg List.length hl
          simp only [List.length_cons] at this hlen
          omega
  intro codes
  exact h codes.length codes (Nat.le_refl _)

theorem Bit24.processedCodes_plain (c : List Char) (rest : List (List Char))
    (h : Bit24.decodesGroup (c :: rest) = false) :
    Bit24.processedCodes (c :: rest) = c :: Bit24.processedCodes rest := by
  simp [Bit24.processedCodes, Bit24.visited, Bit24.visitedFrom, h]

theorem Bit24.processedCodes_group (c m r g b : List Char) (rest4 : List (List Char))
    (h : Bit24.decodesGroup (c :: m :: r :: g :: b :: rest4) = true) :
    Bit24.processedCodes (c :: m :: r :: g :: b :: rest4) = c :: Bit24.processedCodes rest4 := by
  simp [Bit24.processedCodes, Bit24.visited, Bit24.visitedFrom, h]

theorem processSegment24_eq (c : List Char) (s : Style) :
    Bit24.processSegment c s = Bit8.processSegment c s := rfl

/-! ## Last write wins -/

theorem lastWriteWeight_cons (prior : String) (o : Option Int) (os : List (Option Int)) :
    lastWriteWeight prior (o :: os) = lastWriteWeight (lastWriteWeight prior [o]) os := by
  unfold lastWriteWeight weightCodes
  cases hf : o.bind (fun n => if n = 0 ∨ n = 1 ∨ n = 22 then some n else none) with
  | none => simp [List.filterMap_cons, hf]
  | some n =>
    simp only [List.filterMap_cons, hf, List.filterMap_nil, List.getLast?_singleton]
    cases hw : List.filterMap (fun o : Option Int =>
        o.bind (fun n => if n = 0 ∨ n = 1 ∨ n = 22 then some n else none)) os with
    | nil => simp
    | cons w ws =>
      cases hl : (n :: w :: ws).getLast? with
      | none => simp at hl
      | some m =>
        rw [List.getLast?_cons_cons] at hl
        simp only [hl]

theorem applyCode8_weight (n : Int) (s : Style) :
    (Bit8.applyCode n s).current_weight = lastWriteWeight s.current_weight [some n] := by
  unfold Bit8.applyCode
  by_cases h0 : n = 0
  · subst h0; rfl
  by_cases h1 : n = 1
  · subst h1; rfl
  by_cases h22 : n = 22
  · subst h22; rfl
  have hw : lastWriteWeight s.current_weight [some n] = s.current_weight := by
    simp [lastWriteWeight, weightCodes, h0, h1, h22]
  rw [hw, if_neg h0, if_neg h1]
  split_ifs <;> first | rfl | (split <;> rfl)

theorem processSegment8_weight (seg : List Char) (s : Style) :
    (Bit8.processSegment seg s).current_weight =
      lastWriteWeight s.current_weight [codeOf seg] := by
  cases hs : stoi (if seg.isEmpty = true then ['0'] else seg) with
  | error e =>
    simp only [Bit8.processSegment, codeOf, hs]
    rfl
  | ok n =>
    simp only [Bit8.processSegment, codeOf, hs]
    exact applyCode8_weight n s

theorem processSegments8_weight (segs : List (List Char)) :
    ∀ (s : Style), (Bit8.processSegments segs s).current_weight =
      lastWriteWeight s.current_weight (segs.map codeOf) := by
  induction segs with
  | nil => intro s; rfl
  | cons seg rest ih =>
    intro s
    rw [Bit8.processSegments_cons, ih, List.map_cons, lastWriteWeight_cons,
      processSegment8_weight]

theorem processCodes24_weight (codes : List (List Char)) :
    ∀ (s : Style), (Bit24.processCodes codes s).current_weight =
      lastWriteWeight s.current_weight ((Bit24.processedCodes codes).map codeOf) := by
  induction codes using Bit24.codes_induction with
  | hnil => intro s; rfl
  | hplain c rest hd ih =>
    intro s
    rw [Bit24.processCodes_cons_plain c rest s hd, ih, Bit24.processedCodes_plain c rest hd,
      List.map_cons, lastWriteWeight_cons, processSegment24_eq, processSegment8_weight]
  | hgroup c r g b rest4 rv gv bv hc hr hg hb ih =>
    intro s
    have hd := Bit24.decodesGroup_of_parts c r g b rest4 rv gv bv hc hr hg hb
    rw [Bit24.processCodes_cons_group c ['2'] r g b rest4 s rv gv bv hc rfl hr hg hb, ih,
      Bit24.processedCodes_group c ['2'] r g b rest4 hd, List.map_cons, lastWriteWeight_cons]
    have h38 : codeOf c = some 38 := by simp only [codeOf, hc]
    rw [h38]
    rfl

/-! ## Groups that are not decoded -/

/-- A parameter that parses to 38 is not empty, so `stoi` reads 38 from it as an operand
too. -/
theorem stoi_of_code38 (c : List Char)
    (hc : stoi (if c.isEmpty then ['0'] else c) = Except.ok 38) : stoi c = Except.ok 38 := by
  cases c with
  | nil =>
    have h0 : stoi (if ([] : List Char).isEmpty then ['0'] else []) = Except.ok 0 := rfl
    rw [h0] at hc
    exact absurd (Except.ok.inj hc) (by decide)
  | cons a c => exact hc

/-- Removing, from what follows a parameter, a 38 that does not head a decodable group does
not make that parameter head a decoded group. -/
theorem Bit24.decodesGroup_remove (x c : List Char) (xs rest : List (List Char))
    (hc : stoi (if c.isEmpty then ['0'] else c) = Except.ok 38)
    (hbad : Bit24.decodesGroup (c :: rest) = false)
    (hd : Bit24.decodesGroup (x :: (xs ++ c :: rest)) = false) :
    Bit24.decodesGroup (x :: (xs ++ rest)) = false := by
  cases hd2 : Bit24.decodesGroup (x :: (xs ++ rest)) with
  | false => rfl
  | true =>
    exfalso
    obtain ⟨x2, r, g, b, rest4, rv, gv, bv, hl, hx, hr, hg, hb⟩ :=
      Bit24.decodesGroup_eq_true _ hd2
    simp only [List.cons.injEq] at hl
    obtain ⟨hx2, hrest⟩ := hl
    subst hx2
    have hc2 := stoi_of_code38 c hc
    rcases xs with _ | ⟨x1, _ | ⟨x2, _ | ⟨x3, _ | ⟨x4, xs⟩⟩⟩⟩
    · simp only [List.nil_append] at hrest hd
      rw [hrest, Bit24.decodesGroup_of_parts c r g b rest4 rv gv bv hc hr hg hb] at hbad
      cases hbad
    · simp only [List.cons_append, List.nil_append, List.cons.injEq] at hrest hd
      obtain ⟨h1, h2⟩ := hrest
      subst h1
      rw [h2, Bit24.decodesGroup_of_parts x c r g (b :: rest4) 38 rv gv hx hc2 hr hg] at hd
      cases hd
    · simp only [List.cons_append, List.nil_append, List.cons.injEq] at hrest hd
      obtain ⟨h1, h2, h3⟩ := hrest
      subst h1 h2
      rw [h3, Bit24.decodesGroup_of_parts x _ c g (b :: rest4) rv 38 gv hx hr hc2 hg] at hd
      cases hd
    · simp only [List.cons_append, List.nil_append, List.cons.injEq] at hrest hd
      obtain ⟨h1, h2, h3, h4⟩ := hrest
      subst h1 h2 h3
      rw [Bit24.decodesGroup_of_parts x _ _ c rest rv gv 38 hx hr hg hc2] at hd
      cases hd
    · simp only [List.cons_append, List.cons.injEq] at hrest hd
      obtain ⟨h1, h2, h3, h4, -⟩ := hrest
      subst h1 h2 h3 h4
      rw [Bit24.decodesGroup_of_parts x _ _ _ _ rv gv bv hx hr hg hb] at hd
      cases hd

/-- A 38 the loop processes as a code and that does not head a decoded group can be removed
from the parameter list without changing the result. -/
theorem Bit24.remove_undecoded (c : List Char) (rest : List (List Char))
    (hc : stoi (if c.isEmpty then ['0'] else c) = Except.ok 38)
    (hbad : Bit24.decodesGroup (c :: rest) = false) :
    ∀ (n : Nat) (xs : List (List Char)) (s : Style), xs.length ≤ n →
      (Bit24.visitedFrom 0 (xs ++ c :: rest))[xs.length]? = some true →
      Bit24.processCodes (xs ++ c :: rest) s = Bit24.processCodes (xs ++ rest) s := by
  have hbase : ∀ s, Bit24.processCodes (c :: rest) s = Bit24.processCodes rest s := by
    intro s
    rw [Bit24.processCodes_cons_plain c rest s hbad]
    simp only [Bit24.processSegment, hc]
    rfl
  intro n
  induction n with
  | zero =>
    intro xs s hlen _
    have hx : xs = [] := List.length_eq_zero.mp (by omega)
    subst hx
    exact hbase s
  | succ n ih =>
    intro xs s hlen hv
    cases xs with
    | nil => exact hbase s
    | cons x xs =>
      cases hd : Bit24.decodesGroup (x :: (xs ++ c :: rest)) with
      | false =>
        have hd2 := Bit24.decodesGroup_remove x c xs rest hc hbad hd
        rw [List.cons_append, List.cons_append, Bit24.processCodes_cons_plain _ _ s hd,
          Bit24.processCodes_cons_plain _ _ s hd2]
        apply ih xs _ (by simpa using hlen)
        simpa [Bit24.visitedFrom, hd] using hv
      | true =>
        obtain ⟨x0, r, g, b, rest4, rv, gv, bv, hl, hx, hr, hg, hb⟩ :=
          Bit24.decodesGroup_eq_true _ hd
        simp only [List.cons.injEq] at hl
        obtain ⟨hx0, hrest⟩ := hl
        subst hx0
        rcases xs with _ | ⟨x1, _ | ⟨x2, _ | ⟨x3, _ | ⟨x4, xs⟩⟩⟩⟩
        · simp only [List.nil_append, List.cons.injEq] at hrest
          rw [hrest.1] at hc
          have h2 : stoi (if ['2'].isEmpty then ['0'] else ['2']) = Except.ok 2 := rfl
          rw [h2] at hc
          exact absurd (Except.ok.inj hc) (by decide)
        · simp only [List.cons_append, List.nil_append] at hd
          simp [Bit24.visitedFrom, hd] at hv
        · simp only [List.cons_append, List.nil_append] at hd
          simp [Bit24.visitedFrom, hd] at hv
        · simp only [List.cons_append, List.nil_append] at hd
          simp [Bit24.visitedFrom, hd] at hv
        · simp only [List.cons_append, List.cons.injEq] at hrest
          obtain ⟨h1, h2, h3, h4, -⟩ := hrest
          subst h1 h2 h3 h4
          simp only [List.cons_append]
          rw [Bit24.processCodes_cons_group x ['2'] _ _ _ _ s rv gv bv hx rfl hr hg hb,
            Bit24.processCodes_cons_group x ['2'] _ _ _ _ s rv gv bv hx rfl hr hg hb]
          apply ih xs _ (by simp at hlen; omega)
          simp only [List.cons_append] at hd
          simpa [Bit24.visitedFrom, hd] using hv

/-- A parameter list does not head a decoded group when what follows its head is not the
token `2` and three parameters that parse. -/
theorem Bit24.decodesGroup_of_not_followed (c : List Char) (rest : List (List Char))
    (hbad : ¬ ∃ r g b more rv gv bv, rest = ['2'] :: r :: g :: b :: more ∧
      stoi r = Except.ok rv ∧ stoi g = Except.ok gv ∧ stoi b = Except.ok bv) :
    Bit24.decodesGroup (c :: rest) = false := by
  cases hd : Bit24.decodesGroup (c :: rest) with
  | false => rfl
  | true =>
    obtain ⟨c2, r, g, b, rest4, rv, gv, bv, hl, -, hr, hg, hb⟩ :=
      Bit24.decodesGroup_eq_true _ hd
    simp only [List.cons.injEq] at hl
    exact absurd ⟨r, g, b, rest4, rv, gv, bv, hl.2, hr, hg, hb⟩ hbad

/-! ## The capture groups of a line -/

theorem scanCaptures_fuel :
    ∀ (f1 f2 : Nat) (line : List Char), line.length ≤ f1 → line.length ≤ f2 →
      scanCaptures f1 line = scanCaptures f2 line := by
  intro f1
  induction f1 with
  | zero =>
    intro f2 line h1 _
    have hl : line = [] := List.length_eq_zero.mp (by omega)
    subst hl
    cases f2 <;> simp [scanCaptures, regex_search]
  | succ n ih =>
    intro f2 line h1 h2
    cases hs : regex_search line with
    | none => cases f2 <;> simp [scanCaptures, hs]
    | some m =>
      have hlt := regex_search_after_length line m hs
      cases f2 with
      | zero => omega
      | succ k =>
        simp only [scanCaptures, hs]
        rw [ih k m.after (by omega) (by omega)]

/-- The capture groups of a line: that of the first match, then those of the text after it. -/
theorem captures_eq (line : List Char) :
    captures line =
      match regex_search line with
      | none => []
      | some m => m.group1 :: captures m.after := by
  unfold captures
  cases hs : regex_search line with
  | none => cases hlen : line.length <;> simp [scanCaptures, hs]
  | some m =>
    have hlt := regex_search_after_length line m hs
    cases hlen : line.length with
    | zero => omega
    | succ k =>
      simp only [scanCaptures, hs]
      rw [scanCaptures_fuel k m.after.length m.after (by omega) (Nat.le_refl _)]

/-- Two treatments of the capture group that agree on the capture groups of a line give the
same spans and the same style for it. -/
theorem processLine_congr (f g : List Char → Style → Style) :
    ∀ (n : Nat) (line : List Char) (s : Style), line.length ≤ n →
      (∀ cap ∈ captures line, ∀ t, f cap t = g cap t) →
      processLine f line s = processLine g line s := by
  intro n
  induction n with
  | zero =>
    intro line s hlen _
    have hl : line = [] := List.length_eq_zero.mp (by omega)
    subst hl
    rfl
  | succ n ih =>
    intro line s hlen h
    rw [processLine_eq f, processLine_eq g]
    rw [captures_eq] at h
    cases hs : regex_search line with
    | none => rfl
    | some m =>
      rw [hs] at h
      have hlt := regex_search_after_length line m hs
      simp only
      rw [h m.group1 (List.mem_cons_self _ _) s,
        ih m.after (g m.group1 s) (by omega)
          (fun cap hcap t => h cap (List.mem_cons_of_mem _ hcap) t)]

/-- A property of styles that every treatment of a capture group of the line preserves holds
for the style after the line and for every span of it. -/
theorem processLine_invariant (P : Style → Prop) (f : List Char → Style → Style) :
    ∀ (n : Nat) (line : List Char) (s : Style), line.length ≤ n → P s →
      (∀ cap ∈ captures line, ∀ t, P t → P (f cap t)) →
      P (processLine f line s).2 ∧ ∀ span ∈ (processLine f line s).1, P span.style := by
  have hflush : ∀ (t : List Char) (s : Style), P s → ∀ span ∈ flush t s, P span.style := by
    intro t s hs span hsp
    unfold flush at hsp
    split at hsp
    · simp only [List.mem_singleton] at hsp
      rw [hsp]; exact hs
    · cases hsp
  intro n
  induction n with
  | zero =>
    intro line s hlen hP _
    have hl : line = [] := List.length_eq_zero.mp (by omega)
    subst hl
    rw [processLine_none f [] s not_containsEscape_nil]
    exact ⟨hP, hflush [] s hP⟩
  | succ n ih =>
    intro line s hlen hP h
    rw [processLine_eq f]
    rw [captures_eq] at h
    cases hs : regex_search line with
    | none => exact ⟨hP, hflush line s hP⟩
    | some m =>
      rw [hs] at h
      have hlt := regex_search_after_length line m hs
      have hnext := ih m.after (f m.group1 s) (by omega)
        (h m.group1 (List.mem_cons_self _ _) s hP)
        (fun cap hcap t => h cap (List.mem_cons_of_mem _ hcap) t)
      refine ⟨hnext.1, ?_⟩
      intro span hsp
      rcases List.mem_append.mp hsp with h1 | h1
      · exact hflush _ s hP span h1
      · exact hnext.2 span h1

theorem readLines_congr (f g : List Char → Style → Style) (lines : List (List Char))
    (h : ∀ line ∈ lines, ∀ cap ∈ captures line, ∀ t, f cap t = g cap t) :
    ∀ (s : Style), readLines f lines ([], s) = readLines g lines ([], s) := by
  induction lines with
  | nil => intro s; rfl
  | cons line rest ih =>
    intro s
    rw [readLines_cons f, readLines_cons g,
      processLine_congr f g line.length line s (Nat.le_refl _)
        (h line (List.mem_cons_self _ _)),
      ih (fun l hl => h l (List.mem_cons_of_mem _ hl))]

theorem readLines_invariant (P : Style → Prop) (f : List Char → Style → Style)
    (lines : List (List Char))
    (h : ∀ line ∈ lines, ∀ cap ∈ captures line, ∀ t, P t → P (f cap t)) :
    ∀ (s : Style), P s →
      ∀ spans ∈ (readLines f lines ([], s)).1, ∀ span ∈ spans, P span.style := by
  induction lines with
  | nil => intro s _ spans hs; cases hs
  | cons line rest ih =>
    intro s hP spans hs span hsp
    rw [readLines_cons] at hs
    have hline := processLine_invariant P f line.length line s (Nat.le_refl _) hP
      (h line (List.mem_cons_self _ _))
    rcases List.mem_cons.mp hs with h1 | h1
    · rw [h1] at hsp
      exact hline.2 span hsp
    · exact ih (fun l hl => h l (List.mem_cons_of_mem _ hl)) _ hline.1 spans h1 span hsp

/-! ## Agreement of the two variants -/

theorem processCodes24_eq_8 (codes : List (List Char)) :
    hasTrueColourGroup codes = false →
      ∀ (s : Style), Bit24.processCodes codes s = Bit8.processSegments codes s := by
  induction codes with
  | nil => intro _ s; rfl
  | cons c rest ih =>
    intro h s
    simp only [hasTrueColourGroup, Bool.or_eq_false_iff] at h
    have hd : Bit24.decodesGroup (c :: rest) = false := by
      cases hd : Bit24.decodesGroup (c :: rest) with
      | false => rfl
      | true =>
        obtain ⟨c2, r, g, b, rest4, rv, gv, bv, hl, hc, -, -, -⟩ :=
          Bit24.decodesGroup_eq_true _ hd
        have hh := h.1
        rw [hl] at hh
        have h38 : codeOf c2 = some 38 := by simp only [codeOf, hc]
        simp only [trueColourHead, h38] at hh
        exact absurd hh (by decide)
    rw [Bit24.processCodes_cons_plain c rest s hd, ih h.2, Bit8.processSegments_cons,
      processSegment24_eq]

theorem interpret24_eq_8 (cap : List Char)
    (h : cap.getLast? = some 'm' → hasTrueColourGroup (getlineAll cap.dropLast) = false)
    (s : Style) : Bit8.interpret cap s = Bit24.interpret cap s := by
  unfold Bit8.interpret Bit24.interpret
  by_cases hm : cap.getLast? = some 'm'
  · rw [if_pos hm, if_pos hm, processCodes24_eq_8 _ (h hm)]
    rfl
  · rw [if_neg hm, if_neg hm]

/-! ## The attributes of a span -/

theorem lookup_mem (n : Int) (c : String) :
    ∀ (table : List (Int × String)), table.lookup n = some c → c ∈ table.map Prod.snd := by
  intro table
  induction table with
  | nil => intro h; simp [List.lookup] at h
  | cons p rest ih =>
    intro h
    obtain ⟨k, v⟩ := p
    simp only [List.lookup] at h
    split at h
    · simp only [Option.some.injEq] at h
      simp [h]
    · simp only [List.map_cons, List.mem_cons]
      exact Or.inr (ih h)

theorem ansi_colors_hex (n : Int) (c : String) (h : ansi_colors.lookup n = some c) :
    isHexColour c = true := by
  have hall : ∀ x ∈ ansi_colors.map Prod.snd, isHexColour x = true := by decide
  exact hall c (lookup_mem n c ansi_colors h)

theorem wellFormed_default : WellFormedStyle defaultStyle := by
  unfold WellFormedStyle; decide

theorem applyCode8_wellFormed (n : Int) (s : Style) (hs : WellFormedStyle s) :
    WellFormedStyle (Bit8.applyCode n s) := by
  unfold Bit8.applyCode
  split
  · exact wellFormed_default
  · split
    · exact ⟨hs.1, Or.inr rfl, hs.2.2⟩
    · split
      · exact ⟨hs.1, hs.2.1, Or.inr rfl⟩
      · split
        · exact ⟨hs.1, Or.inl rfl, hs.2.2⟩
        · split
          · exact ⟨hs.1, hs.2.1, Or.inl rfl⟩
          · split
            · rename_i c hc
              exact ⟨ansi_colors_hex n c hc, hs.2.1, hs.2.2⟩
            · exact hs

theorem processSegment8_wellFormed (seg : List Char) (s : Style) (hs : WellFormedStyle s) :
    WellFormedStyle (Bit8.processSegment seg s) := by
  unfold Bit8.processSegment
  simp only
  split
  · exact applyCode8_wellFormed _ s hs
  · exact hs

theorem processSegments8_wellFormed (segs : List (List Char)) :
    ∀ (s : Style), WellFormedStyle s → WellFormedStyle (Bit8.processSegments segs s) := by
  induction segs with
  | nil => intro s hs; exact hs
  | cons seg rest ih =>
    intro s hs
    rw [Bit8.processSegments_cons]
    exact ih _ (processSegment8_wellFormed seg s hs)

theorem interpret8_wellFormed (cap : List Char) (s : Style) (hs : WellFormedStyle s) :
    WellFormedStyle (Bit8.interpret cap s) := by
  unfold Bit8.interpret
  split
  · exact processSegments8_wellFormed _ s hs
  · exact hs

set_option maxRecDepth 100000 in
/-- A value in 0..255 is written as exactly two hexadecimal digits. -/
theorem hexField_byte (v : Int) (h0 : 0 ≤ v) (h1 : v ≤ 255) :
    (Bit24.hexField v).length = 2 ∧ (Bit24.hexField v).all isHexDigit = true := by
  have hall : ∀ n : Nat, n < 256 →
      (List.replicate (2 - (Nat.toDigits 16 n).length) '0' ++ Nat.toDigits 16 n).length = 2 ∧
      (List.replicate (2 - (Nat.toDigits 16 n).length) '0' ++ Nat.toDigits 16 n).all
        isHexDigit = true := by
    decide
  have hv : (v % 4294967296).toNat = v.toNat := by
    rw [Int.emod_eq_of_lt h0 (by omega)]
  have hn : v.toNat < 256 := by omega
  unfold Bit24.hexField
  simp only [hv]
  exact hall v.toNat hn

theorem hexColor_wellFormed (r g b : Int) (hr : 0 ≤ r ∧ r ≤ 255) (hg : 0 ≤ g ∧ g ≤ 255)
    (hb : 0 ≤ b ∧ b ≤ 255) : isHexColour (Bit24.hexColor r g b) = true := by
  obtain ⟨lr, ar⟩ := hexField_byte r hr.1 hr.2
  obtain ⟨lg, ag⟩ := hexField_byte g hg.1 hg.2
  obtain ⟨lb, ab⟩ := hexField_byte b hb.1 hb.2
  unfold Bit24.hexColor isHexColour
  simp only [List.length_append, lr, lg, lb, List.all_append, ar, ag, ab]
  rfl

theorem applyCode24_eq_8 (n : Int) (s : Style) : Bit24.applyCode n s = Bit8.applyCode n s :=
  rfl

theorem groupsInRange_plain (c : List Char) (rest : List (List Char))
    (h : Bit24.decodesGroup (c :: rest) = false) :
    Bit24.groupsInRange (c :: rest) = Bit24.groupsInRange rest := by
  rcases rest with _ | ⟨m, _ | ⟨r, _ | ⟨g, _ | ⟨b, rest4⟩⟩⟩⟩
  · simp only [Bit24.groupsInRange]
  · simp only [Bit24.groupsInRange]
  · simp only [Bit24.groupsInRange]
  · simp only [Bit24.groupsInRange]
  · rw [Bit24.groupsInRange]
    simp only [Bit24.decodesGroup] at h
    split
    · rename_i code rv gv bv hc hr hg hb
      simp only [hc, hr, hg, hb, decide_eq_false_iff_not] at h
      rw [if_neg h]
    · rfl

theorem groupsInRange_group (c r g b : List Char) (rest4 : List (List Char)) (rv gv bv : Int)
    (hc : stoi (if c.isEmpty then ['0'] else c) = Except.ok 38)
    (hr : stoi r = Except.ok rv) (hg : stoi g = Except.ok gv) (hb : stoi b = Except.ok bv) :
    Bit24.groupsInRange (c :: ['2'] :: r :: g :: b :: rest4) =
      (decide (0 ≤ rv ∧ rv ≤ 255 ∧ 0 ≤ gv ∧ gv ≤ 255 ∧ 0 ≤ bv ∧ bv ≤ 255) &&
        Bit24.groupsInRange rest4) := by
  rw [Bit24.groupsInRange]
  simp only [hc, hr, hg, hb, and_self, if_true]

theorem processCodes24_wellFormed (codes : List (List Char)) :
    Bit24.groupsInRange codes = true → ∀ (s : Style), WellFormedStyle s →
      WellFormedStyle (Bit24.processCodes codes s) := by
  induction codes using Bit24.codes_induction with
  | hnil => intro _ s hs; exact hs
  | hplain c rest hd ih =>
    intro h s hs
    rw [groupsInRange_plain c rest hd] at h
    rw [Bit24.processCodes_cons_plain c rest s hd, processSegment24_eq]
    exact ih h _ (processSegment8_wellFormed c s hs)
  | hgroup c r g b rest4 rv gv bv hc hr hg hb ih =>
    intro h s hs
    rw [groupsInRange_group c r g b rest4 rv gv bv hc hr hg hb, Bool.and_eq_true,
      decide_eq_true_eq] at h
    rw [Bit24.processCodes_cons_group c ['2'] r g b rest4 s rv gv bv hc rfl hr hg hb]
    refine ih h.2 _ ⟨?_, hs.2.1, hs.2.2⟩
    exact hexColor_wellFormed rv gv bv ⟨h.1.1, h.1.2.1⟩ ⟨h.1.2.2.1, h.1.2.2.2.1⟩
      ⟨h.1.2.2.2.2.1, h.1.2.2.2.2.2⟩

theorem interpret24_wellFormed (cap : List Char)
    (h : cap.getLast? = some 'm' → Bit24.groupsInRange (getlineAll cap.dropLast) = true)
    (s : Style) (hs : WellFormedStyle s) : WellFormedStyle (Bit24.interpret cap s) := by
  unfold Bit24.interpret
  split
  · rename_i hm
    exact processCodes24_wellFormed _ (h hm) s hs
  · exact hs

/-! ## Reading the file -/

/-- The list `fileLines` is what the loop `while (getline(input_file, line))` reads: nothing
when the first call fails, otherwise the line of the first call followed by what the loop
reads from the rest of the file. -/
theorem fileLines_eq_getline (content : List Char) :
    fileLines content =
      match getline '\n' content with
      | none => []
      | some (line, rest) => line :: fileLines rest := by
  induction content with
  | nil => rfl
  | cons c cs ih =>
    by_cases hc : c = '\n'
    · simp only [fileLines, getline, hc, if_true]
    · simp only [fileLines, getline, hc, if_false]
      rw [ih]
      cases hg : getline '\n' cs with
      | none => rfl
      | some r => rfl

/-! ## The claims -/

/-- Claim C1. Round trip of the tokenizer, both variants: for every line and every starting style,
the concatenation of the span texts is the line with every escape sequence removed (leftmost,
non-overlapping), every other character being kept in order; `Stripped line out` holds for
exactly that one `out`.  An `ESC [` that no letter terminates stays in the text. -/
theorem C1_round_trip (line : List Char) (s : Style) :
    (∀ out, Stripped line out ↔ out = spanText (Bit8.tokenize line s).1) ∧
    (∀ out, Stripped line out ↔ out = spanText (Bit24.tokenize line s).1) ∧
    spanText (Bit8.tokenize ['a', ESC, '[', '1', ';', '2', ESC, '[', '?'] s).1
      = ['a', ESC, '[', '1', ';', '2', ESC, '[', '?'] ∧
    spanText (Bit24.tokenize ['a', ESC, '[', '1', ';', '2', ESC, '[', '?'] s).1
      = ['a', ESC, '[', '1', ';', '2', ESC, '[', '?'] := by
  have h8 := stripped_processLine Bit8.interpret line.length line s (le_refl _)
  have h24 := stripped_processLine Bit24.interpret line.length line s (le_refl _)
  refine ⟨fun out => ⟨fun h => h.unique h8, fun h => h ▸ h8⟩,
    fun out => ⟨fun h => h.unique h24, fun h => h ▸ h24⟩, ?_, ?_⟩
  · have hc : ¬ ContainsEscape ['a', ESC, '[', '1', ';', '2', ESC, '[', '?'] :=
      (regex_search_eq_none_iff _).mp (by decide)
    show spanText (processLine Bit8.interpret _ s).1 = _
    rw [processLine_none _ _ s hc, spanText_flush]
  · have hc : ¬ ContainsEscape ['a', ESC, '[', '1', ';', '2', ESC, '[', '?'] :=
      (regex_search_eq_none_iff _).mp (by decide)
    show spanText (processLine Bit24.interpret _ s).1 = _
    rw [processLine_none _ _ s hc, spanText_flush]

/-- Claim C2. Span styling order, both variants: in a line made of literal texts, each followed
by an escape sequence, and a last literal text, every literal text before a sequence becomes a
span under the style in effect before that sequence is applied, and the last literal text a span
under the final style (an empty text gives no span).  Scenario: from the default style
`ESC[31mHello ESC[0m World` gives `Hello` in `#CD3131` and ` World` in `#FFFFFF`. -/
theorem C2_span_styling_order :
    (∀ (pieces : List (List Char × EscapeSeq)) (last : List Char) (s : Style),
      (∀ p ∈ pieces, ¬ ContainsEscape p.1 ∧ p.2.WellFormed) → ¬ ContainsEscape last →
      Bit8.tokenize (assemble pieces last) s = styledSpans Bit8.interpret pieces last s ∧
      Bit24.tokenize (assemble pieces last) s = styledSpans Bit24.interpret pieces last s) ∧
    Bit8.tokenize "\x1B[31mHello\x1B[0m World".toList defaultStyle =
      ([⟨"Hello".toList, "#CD3131", "normal", "normal"⟩,
        ⟨" World".toList, "#FFFFFF", "normal", "normal"⟩], defaultStyle) ∧
    Bit24.tokenize "\x1B[31mHello\x1B[0m World".toList defaultStyle =
      ([⟨"Hello".toList, "#CD3131", "normal", "normal"⟩,
        ⟨" World".toList, "#FFFFFF", "normal", "normal"⟩], defaultStyle) :=
  ⟨fun pieces last s hp hl =>
    ⟨processLine_assemble Bit8.interpret pieces last hp hl s,
      processLine_assemble Bit24.interpret pieces last hp hl s⟩, by decide, by decide⟩

/-- Witness of C2: the scenario line as an assembly of two pieces and a last text. -/
theorem C2_span_styling_order_witness :
    (∀ p ∈ [(([] : List Char), EscapeSeq.mk ['3', '1'] 'm'), ("Hello".toList, EscapeSeq.mk ['0'] 'm')],
      ¬ ContainsEscape p.1 ∧ p.2.WellFormed) ∧ ¬ ContainsEscape " World".toList ∧
    Bit8.tokenize (assemble [([], ⟨['3', '1'], 'm'⟩), ("Hello".toList, ⟨['0'], 'm'⟩)]
      " World".toList) defaultStyle =
      ([⟨"Hello".toList, "#CD3131", "normal", "normal"⟩,
        ⟨" World".toList, "#FFFFFF", "normal", "normal"⟩], defaultStyle) := by
  have hp : ∀ p ∈ [(([] : List Char), EscapeSeq.mk ['3', '1'] 'm'),
      ("Hello".toList, EscapeSeq.mk ['0'] 'm')], ¬ ContainsEscape p.1 ∧ p.2.WellFormed := by
    intro p hp
    simp only [List.mem_cons, List.mem_singleton, List.not_mem_nil, or_false] at hp
    rcases hp with rfl | rfl
    · exact ⟨not_containsEscape_nil, by decide, by decide⟩
    · exact ⟨(regex_search_eq_none_iff _).mp (by decide), by decide, by decide⟩
  have hl : ¬ ContainsEscape " World".toList := (regex_search_eq_none_iff _).mp (by decide)
  exact ⟨hp, hl, ((C2_span_styling_order.1 _ _ defaultStyle hp hl).1).trans (by decide)⟩

/-- Counterexample to C3 as stated: from the default style `ESC[38;2;255;0;0m` does not give
the colour string `#FF0000`, nor `ESC[38;2;0;255;0m` the string `#00FF00`. -/
theorem C3_counterexample :
    (Bit24.tokenize "\x1B[38;2;255;0;0m".toList defaultStyle).2.current_color ≠ "#FF0000" ∧
    (Bit24.tokenize "\x1B[38;2;0;255;0m".toList defaultStyle).2.current_color ≠ "#00FF00" := by
  decide

/-- Claim C3, amended. In the 24-bit variant, from every prior style, `ESC[38;2;255;0;0m` sets
the colour string to `#ff0000` and `ESC[38;2;0;255;0m` sets it to `#00ff00` (lower-case
hexadecimal digits); weight and slant are unchanged and no span is produced. -/
theorem C3_true_colour (s : Style) :
    Bit24.tokenize "\x1B[38;2;255;0;0m".toList s =
      ([], { s with current_color := "#ff0000" }) ∧
    Bit24.tokenize "\x1B[38;2;0;255;0m".toList s =
      ([], { s with current_color := "#00ff00" }) :=
  ⟨rfl, rfl⟩

/-- Claim C4, the code at the failing inputs. The split of `1;` reads one segment only, so
`ESC[1;m` does not reset: from the default style it ends in bold where `ESC[1;0m` ends in
normal weight, in both variants.  In the 24-bit variant an empty R operand is not read as
`0` either: `ESC[38;2;;0;0m` resets where `ESC[38;2;0;0;0m` sets the colour `#000000`.  An
empty segment that is read is processed as `0`. -/
theorem C4_trailing_empty_slot :
    getlineAll "1;".toList = ["1".toList] ∧
    getlineAll "1;0".toList = ["1".toList, "0".toList] ∧
    (Bit8.tokenize "\x1B[1;m".toList defaultStyle).2 = ⟨"#FFFFFF", "bold", "normal"⟩ ∧
    (Bit8.tokenize "\x1B[1;0m".toList defaultStyle).2 = ⟨"#FFFFFF", "normal", "normal"⟩ ∧
    (Bit24.tokenize "\x1B[1;m".toList defaultStyle).2 = ⟨"#FFFFFF", "bold", "normal"⟩ ∧
    (Bit24.tokenize "\x1B[1;0m".toList defaultStyle).2 = ⟨"#FFFFFF", "normal", "normal"⟩ ∧
    (Bit24.tokenize "\x1B[38;2;;0;0m".toList ⟨"#CD3131", "bold", "italic"⟩).2 =
      ⟨"#FFFFFF", "normal", "normal"⟩ ∧
    (Bit24.tokenize "\x1B[38;2;0;0;0m".toList ⟨"#CD3131", "bold", "italic"⟩).2 =
      ⟨"#000000", "bold", "italic"⟩ ∧
    (∀ s, Bit8.processSegment [] s = Bit8.processSegment ['0'] s) ∧
    (∀ s, Bit24.processSegment [] s = Bit24.processSegment ['0'] s) :=
  ⟨by decide, by decide, by decide, by decide, by decide, by decide, by decide, by decide,
    fun _ => rfl, fun _ => rfl⟩

/-- Claim C5. For every prior style, `ESC[;1m` gives the same style as `ESC[0;1m`, namely
(`#FFFFFF`, bold, normal), in both variants. -/
theorem C5_leading_empty_slot (s : Style) :
    (Bit8.tokenize "\x1B[;1m".toList s).2 = ⟨"#FFFFFF", "bold", "normal"⟩ ∧
    (Bit8.tokenize "\x1B[0;1m".toList s).2 = ⟨"#FFFFFF", "bold", "normal"⟩ ∧
    (Bit24.tokenize "\x1B[;1m".toList s).2 = ⟨"#FFFFFF", "bold", "normal"⟩ ∧
    (Bit24.tokenize "\x1B[0;1m".toList s).2 = ⟨"#FFFFFF", "bold", "normal"⟩ :=
  ⟨rfl, rfl, rfl, rfl⟩

/-- Claim C6. Reset absorbs everything before it: for every prior style `s`, all parameter
lists `xs`, `ys` and every parameter `z` that parses to 0, interpreting `xs ++ [z] ++ ys` from
`s` gives what interpreting `ys` from the default style gives; without condition in the 8-bit
variant, and in the 24-bit variant whenever the loop processes that `z` as a code (it is not
jumped over as an operand of a decoded `38;2` group).  `ESC[0m` gives the default style from
every prior style. -/
theorem C6_reset_absorbs (s : Style) (xs ys : List (List Char)) (z : List Char)
    (hz : stoi (if z.isEmpty then ['0'] else z) = Except.ok 0) :
    Bit8.processSegments (xs ++ z :: ys) s = Bit8.processSegments ys defaultStyle ∧
    ((Bit24.visited (xs ++ z :: ys))[xs.length]? = some true →
      Bit24.processCodes (xs ++ z :: ys) s = Bit24.processCodes ys defaultStyle) ∧
    Bit8.tokenize "\x1B[0m".toList s = ([], defaultStyle) ∧
    Bit24.tokenize "\x1B[0m".toList s = ([], defaultStyle) := by
  refine ⟨?_, fun hv => Bit24.reset_absorbs z ys hz xs.length xs s (le_refl _) hv, rfl, rfl⟩
  rw [Bit8.processSegments_append, Bit8.processSegments_cons]
  have h0 : ∀ t, Bit8.processSegment z t = defaultStyle := by
    intro t
    simp only [Bit8.processSegment, hz]
    rfl
  rw [h0]

/-- Witness of C6: `31;38;2;1;2;3;0;1` in both variants; the `0` follows a decoded group. -/
theorem C6_reset_absorbs_witness :
    stoi (if "0".toList.isEmpty then ['0'] else "0".toList) = Except.ok 0 ∧
    (Bit24.visited (["31".toList, "38".toList, "2".toList, "1".toList, "2".toList,
      "3".toList] ++ "0".toList :: ["1".toList]))[6]? = some true ∧
    Bit8.processSegments (["31".toList, "38".toList, "2".toList, "1".toList, "2".toList,
      "3".toList] ++ "0".toList :: ["1".toList]) ⟨"#000000", "normal", "italic"⟩ =
      ⟨"#FFFFFF", "bold", "normal"⟩ ∧
    Bit24.processCodes (["31".toList, "38".toList, "2".toList, "1".toList, "2".toList,
      "3".toList] ++ "0".toList :: ["1".toList]) ⟨"#000000", "normal", "italic"⟩ =
      ⟨"#FFFFFF", "bold", "normal"⟩ := by
  have h := C6_reset_absorbs ⟨"#000000", "normal", "italic"⟩
    ["31".toList, "38".toList, "2".toList, "1".toList, "2".toList, "3".toList]
    ["1".toList] "0".toList rfl
  exact ⟨rfl, by decide, h.1.trans (by decide), (h.2.1 (by decide)).trans (by decide)⟩

/-- Claim C7, the code at the failing inputs. The number parser reads the leading digits of
a token and ignores what follows them: `1?` is processed as code 1 and `31?` as code 31, in
both variants.  A token that starts with `?` is skipped. -/
theorem C7_leading_digits_accepted :
    stoi "1?".toList = Except.ok 1 ∧ stoi "31?".toList = Except.ok 31 ∧
    (Bit8.tokenize "\x1B[1?m".toList defaultStyle).2 = ⟨"#FFFFFF", "bold", "normal"⟩ ∧
    (Bit24.tokenize "\x1B[1?m".toList defaultStyle).2 = ⟨"#FFFFFF", "bold", "normal"⟩ ∧
    (Bit8.tokenize "\x1B[31?m".toList defaultStyle).2 = ⟨"#CD3131", "normal", "normal"⟩ ∧
    (Bit24.tokenize "\x1B[31?m".toList defaultStyle).2 = ⟨"#CD3131", "normal", "normal"⟩ ∧
    (∀ rest s, Bit8.processSegment ('?' :: rest) s = s) ∧
    (∀ rest s, Bit24.processSegment ('?' :: rest) s = s) := by
  refine ⟨rfl, rfl, by decide, by decide, by decide, by decide, ?_, ?_⟩
  · intro rest s
    simp only [Bit8.processSegment, List.isEmpty_cons, Bool.false_eq_true, if_false,
      stoi_question]
  · intro rest s
    simp only [Bit24.processSegment, List.isEmpty_cons, Bool.false_eq_true, if_false,
      stoi_question]

/-- Counterexample to C8 as stated: from the default style `ESC[38;5;1m` ends in bold and
`ESC[38;5;31m` in the colour `#CD3131`, in both variants. -/
theorem C8_counterexample :
    (Bit8.tokenize "\x1B[38;5;1m".toList defaultStyle).2 = ⟨"#FFFFFF", "bold", "normal"⟩ ∧
    (Bit24.tokenize "\x1B[38;5;1m".toList defaultStyle).2 = ⟨"#FFFFFF", "bold", "normal"⟩ ∧
    (Bit8.tokenize "\x1B[38;5;1m".toList defaultStyle).2 ≠ defaultStyle ∧
    (Bit24.tokenize "\x1B[38;5;1m".toList defaultStyle).2 ≠ defaultStyle ∧
    (Bit8.tokenize "\x1B[38;5;31m".toList defaultStyle).2 ≠ defaultStyle ∧
    (Bit24.tokenize "\x1B[38;5;31m".toList defaultStyle).2 ≠ defaultStyle := by
  decide

/-- Claim C8, amended. In an extended-foreground group with sub-mode 5 the parameters `38` and
`5` change nothing and what follows them is interpreted as ordinary codes: for every prior
style and every parameter string `N`, `ESC[38;5;Nm` gives what `ESC[Nm` gives, in both
variants; when `N` is a decimal number that is not one of the codes 0, 1, 3, 22, 23, 30..37,
90..97, the style is unchanged. -/
theorem C8_palette_group (ps : List Char) (hps : ∀ c ∈ ps, isParamChar c = true) (s : Style) :
    Bit8.tokenize (sgrSequence ("38;5;".toList ++ ps)) s = Bit8.tokenize (sgrSequence ps) s ∧
    Bit24.tokenize (sgrSequence ("38;5;".toList ++ ps)) s = Bit24.tokenize (sgrSequence ps) s ∧
    (ps ≠ [] → (∀ c ∈ ps, c.isDigit = true) → ¬ ImplementedCode (decimalValue ps) →
      Bit8.tokenize (sgrSequence ("38;5;".toList ++ ps)) s = ([], s) ∧
      Bit24.tokenize (sgrSequence ("38;5;".toList ++ ps)) s = ([], s)) := by
  have hall : ∀ c ∈ "38;5;".toList ++ ps, isParamChar c = true :=
    params_append (by decide) hps
  have h8 : Bit8.tokenize (sgrSequence ("38;5;".toList ++ ps)) s =
      Bit8.tokenize (sgrSequence ps) s := by
    rw [tokenize8_sgrSequence _ hall, tokenize8_sgrSequence _ hps,
      processCodes8_palette]
  have h24 : Bit24.tokenize (sgrSequence ("38;5;".toList ++ ps)) s =
      Bit24.tokenize (sgrSequence ps) s := by
    rw [tokenize24_sgrSequence _ hall, tokenize24_sgrSequence _ hps,
      processCodes24_palette]
  refine ⟨h8, h24, fun hne hds hn => ?_⟩
  have hsplit := getlineAll_single ps (digit_ne_semicolon ps hds) hne
  constructor
  · rw [h8, tokenize8_sgrSequence _ hps, Bit8.processCodes, hsplit,
      Bit8.processSegments_cons, processSegment8_digits ps hne hds hn]
    rfl
  · rw [h24, tokenize24_sgrSequence _ hps, hsplit, Bit24.processCodes_single,
      processSegment24_digits ps hne hds hn]

/-- Witness of C8: the palette index 200. -/
theorem C8_palette_group_witness :
    (∀ c ∈ "200".toList, isParamChar c = true) ∧
    Bit8.tokenize (sgrSequence ("38;5;".toList ++ "200".toList))
      ⟨"#CD3131", "bold", "italic"⟩ = ([], ⟨"#CD3131", "bold", "italic"⟩) ∧
    Bit24.tokenize (sgrSequence ("38;5;".toList ++ "200".toList))
      ⟨"#CD3131", "bold", "italic"⟩ = ([], ⟨"#CD3131", "bold", "italic"⟩) :=
  ⟨by decide,
    (C8_palette_group "200".toList (by decide) ⟨"#CD3131", "bold", "italic"⟩).2.2
      (by decide) (by decide) (by unfold ImplementedCode; decide)⟩

/-- Claim C9. Codes without a meaning change nothing: for every prior style, a parameter that
parses to an integer outside {0, 1, 3, 22, 23, 30..37, 90..97}, and likewise a digit string
too large for an `int`, leaves the style as it is and the loop goes on with the next
parameter; in the 24-bit variant provided the parameter does not head a decoded `38;2;R;G;B`
group.  The exception of `stoi` is caught: the functions are total. -/
theorem C9_unimplemented_codes (s : Style) (seg : List Char) (rest : List (List Char))
    (h : (∃ n, stoi (if seg.isEmpty then ['0'] else seg) = Except.ok n ∧ ¬ ImplementedCode n) ∨
      (seg ≠ [] ∧ (∀ c ∈ seg, c.isDigit = true) ∧ 2147483647 < decimalValue seg)) :
    Bit8.processSegment seg s = s ∧
    Bit8.processSegments (seg :: rest) s = Bit8.processSegments rest s ∧
    Bit24.processSegment seg s = s ∧
    (Bit24.decodesGroup (seg :: rest) = false →
      Bit24.processCodes (seg :: rest) s = Bit24.processCodes rest s) := by
  have h8 : Bit8.processSegment seg s = s := by
    rcases h with ⟨n, hn, hni⟩ | ⟨hne, hds, hbig⟩
    · simp only [Bit8.processSegment, hn]
      exact applyCode8_unimplemented n hni s
    · exact processSegment8_digits seg hne hds
        (by unfold ImplementedCode; omega) s
  have h24 : Bit24.processSegment seg s = s := by
    rcases h with ⟨n, hn, hni⟩ | ⟨hne, hds, hbig⟩
    · simp only [Bit24.processSegment, hn]
      exact applyCode24_unimplemented n hni s
    · exact processSegment24_digits seg hne hds
        (by unfold ImplementedCode; omega) s
  refine ⟨h8, by rw [Bit8.processSegments_cons, h8], h24, fun hd => ?_⟩
  rw [Bit24.processCodes_cons_plain seg rest s hd, h24]

/-- Witness of C9: the code 4 (underline) followed by the code 1. -/
theorem C9_unimplemented_codes_witness :
    ((∃ n, stoi (if "4".toList.isEmpty then ['0'] else "4".toList) = Except.ok n ∧
        ¬ ImplementedCode n) ∨
      ("4".toList ≠ [] ∧ (∀ c ∈ "4".toList, c.isDigit = true) ∧
        2147483647 < decimalValue "4".toList)) ∧
    Bit8.processSegments ["4".toList, "1".toList] defaultStyle =
      Bit8.processSegments ["1".toList] defaultStyle ∧
    Bit24.processCodes ["4".toList, "1".toList] defaultStyle =
      Bit24.processCodes ["1".toList] defaultStyle := by
  have hyp : (∃ n, stoi (if "4".toList.isEmpty then ['0'] else "4".toList) = Except.ok n ∧
        ¬ ImplementedCode n) ∨
      ("4".toList ≠ [] ∧ (∀ c ∈ "4".toList, c.isDigit = true) ∧
        2147483647 < decimalValue "4".toList) :=
    Or.inl ⟨4, rfl, by unfold ImplementedCode; decide⟩
  have h := C9_unimplemented_codes defaultStyle "4".toList ["1".toList] hyp
  exact ⟨hyp, h.2.1, h.2.2.2 (by decide)⟩

/-- Counterexample to C10 as stated: the empty line contains no escape sequence and gives no
span at all, in both variants. -/
theorem C10_counterexample :
    ¬ ContainsEscape [] ∧ (Bit8.tokenize [] defaultStyle).1 = [] ∧
      (Bit24.tokenize [] defaultStyle).1 = [] :=
  ⟨not_containsEscape_nil, by decide, by decide⟩

/-- Claim C10, amended. For any line that contains no escape sequence and any style at line
start, both variants leave the style as it is and give exactly one span, the whole line under
that style, when the line is not empty, and no span when the line is empty. -/
theorem C10_plain_line (line : List Char) (s : Style) (hplain : ¬ ContainsEscape line) :
    (line ≠ [] →
      Bit8.tokenize line s =
        ([⟨line, s.current_color, s.current_weight, s.current_style⟩], s) ∧
      Bit24.tokenize line s =
        ([⟨line, s.current_color, s.current_weight, s.current_style⟩], s)) ∧
    (line = [] → Bit8.tokenize line s = ([], s) ∧ Bit24.tokenize line s = ([], s)) := by
  have h8 : Bit8.tokenize line s = (flush line s, s) := processLine_none _ _ s hplain
  have h24 : Bit24.tokenize line s = (flush line s, s) := processLine_none _ _ s hplain
  constructor
  · intro hne
    have hf : flush line s =
        [⟨line, s.current_color, s.current_weight, s.current_style⟩] := by
      rw [flush_eq_literalSpan]; simp [literalSpan, hne]
    rw [h8, h24, hf]
    exact ⟨rfl, rfl⟩
  · intro hnil
    subst hnil
    rw [h8, h24]
    exact ⟨rfl, rfl⟩

/-- Witness of C10: a line with an unterminated `ESC [` in it. -/
theorem C10_plain_line_witness :
    ¬ ContainsEscape "ab \x1B[12".toList ∧
    Bit8.tokenize "ab \x1B[12".toList defaultStyle =
      ([⟨"ab \x1B[12".toList, "#FFFFFF", "normal", "normal"⟩], defaultStyle) ∧
    Bit24.tokenize "ab \x1B[12".toList defaultStyle =
      ([⟨"ab \x1B[12".toList, "#FFFFFF", "normal", "normal"⟩], defaultStyle) :=
  ⟨(regex_search_eq_none_iff _).mp (by decide),
    (C10_plain_line "ab \x1B[12".toList defaultStyle
      ((regex_search_eq_none_iff _).mp (by decide))).1 (by decide)⟩

/-- Claim C11. Spans are never empty: for every document and every line of it, every span the
tokenizer emits has a text of length at least 1, in both variants.  Adjacent escape sequences,
a sequence at line start or line end, and an empty line give no empty span. -/
theorem C11_spans_never_empty (lines : List (List Char)) :
    (∀ spans ∈ Bit8.lines_of_spans lines, ∀ sp ∈ spans, 1 ≤ sp.text.length) ∧
    (∀ spans ∈ Bit24.lines_of_spans lines, ∀ sp ∈ spans, 1 ≤ sp.text.length) ∧
    Bit8.lines_of_spans ["\x1B[1m\x1B[0m".toList, [], "\x1B[31mab\x1B[0m".toList] =
      [[], [], [⟨"ab".toList, "#CD3131", "normal", "normal"⟩]] ∧
    Bit24.lines_of_spans ["\x1B[1m\x1B[0m".toList, [], "\x1B[31mab\x1B[0m".toList] =
      [[], [], [⟨"ab".toList, "#CD3131", "normal", "normal"⟩]] :=
  ⟨readLines_nonempty Bit8.interpret lines defaultStyle,
    readLines_nonempty Bit24.interpret lines defaultStyle, by decide, by decide⟩

/-- Claim C12. A recognised escape sequence whose final letter is not `m` leaves the style
unchanged, for every prior style and every parameter string, and gives no text: the spans of
a line are those of the text before the sequence followed by those of the rest of the line,
processed from the same style.  Examples: `ESC[2J`, `ESC[10;5H`, `ESC[?25l`. -/
theorem C12_non_sgr_sequence (e : EscapeSeq) (he : e.WellFormed) (hm : e.final ≠ 'm')
    (t rest : List Char) (ht : ¬ ContainsEscape t) (s : Style) :
    Bit8.interpret e.captured s = s ∧ Bit24.interpret e.captured s = s ∧
    Bit8.tokenize (t ++ (e.chars ++ rest)) s =
      (flush t s ++ (Bit8.tokenize rest s).1, (Bit8.tokenize rest s).2) ∧
    Bit24.tokenize (t ++ (e.chars ++ rest)) s =
      (flush t s ++ (Bit24.tokenize rest s).1, (Bit24.tokenize rest s).2) ∧
    Bit8.tokenize "ab\x1B[2Jcd\x1B[10;5H\x1B[?25lef".toList s =
      ([⟨"ab".toList, s.current_color, s.current_weight, s.current_style⟩,
        ⟨"cd".toList, s.current_color, s.current_weight, s.current_style⟩,
        ⟨"ef".toList, s.current_color, s.current_weight, s.current_style⟩], s) ∧
    Bit24.tokenize "ab\x1B[2Jcd\x1B[10;5H\x1B[?25lef".toList s =
      ([⟨"ab".toList, s.current_color, s.current_weight, s.current_style⟩,
        ⟨"cd".toList, s.current_color, s.current_weight, s.current_style⟩,
        ⟨"ef".toList, s.current_color, s.current_weight, s.current_style⟩], s) := by
  have hlast : (e.params ++ [e.final]).getLast? = some e.final := by simp
  have hne : ¬ (some e.final = some 'm') := fun h => hm (Option.some.inj h)
  have h8 : Bit8.interpret e.captured s = s := by
    rw [Bit8.interpret, EscapeSeq.captured, hlast, if_neg hne]
  have h24 : Bit24.interpret e.captured s = s := by
    rw [Bit24.interpret, EscapeSeq.captured, hlast, if_neg hne]
  refine ⟨h8, h24, ?_, ?_, rfl, rfl⟩
  · rw [Bit8.tokenize, processLine_append Bit8.interpret t e rest s ht he, h8]
    rfl
  · rw [Bit24.tokenize, processLine_append Bit24.interpret t e rest s ht he, h24]
    rfl

/-- Witness of C12: the cursor move `ESC[10;5H` between `ab` and `cd`. -/
theorem C12_non_sgr_sequence_witness :
    (EscapeSeq.mk "10;5".toList 'H').WellFormed ∧ ¬ ContainsEscape "ab".toList ∧
    Bit8.tokenize ("ab".toList ++ ((EscapeSeq.mk "10;5".toList 'H').chars ++ "cd".toList))
      ⟨"#CD3131", "bold", "italic"⟩ =
      ([⟨"ab".toList, "#CD3131", "bold", "italic"⟩,
        ⟨"cd".toList, "#CD3131", "bold", "italic"⟩], ⟨"#CD3131", "bold", "italic"⟩) := by
  have he : (EscapeSeq.mk "10;5".toList 'H').WellFormed := ⟨by decide, by decide⟩
  have ht : ¬ ContainsEscape "ab".toList := (regex_search_eq_none_iff _).mp (by decide)
  exact ⟨he, ht,
    (C12_non_sgr_sequence _ he (by decide) "ab".toList "cd".toList ht
      ⟨"#CD3131", "bold", "italic"⟩).2.2.1.trans (by decide)⟩

/-- Claim C13. Last write wins on weight: after interpreting any SGR parameter list from any
prior style, the weight is decided by the last parameter processed as a code that parses to
0, 1 or 22: bold for 1, normal for 0 and 22, the prior weight when there is none; in the
24-bit variant the sub-mode and the operands of a decoded `38;2` group are not processed as
codes.  `1;22` ends in normal weight, and so does `ESC[1m` followed later by `ESC[22m`. -/
theorem C13_last_write_wins (codes : List (List Char)) (s : Style) :
    (Bit8.processSegments codes s).current_weight =
      lastWriteWeight s.current_weight (codes.map codeOf) ∧
    (Bit24.processCodes codes s).current_weight =
      lastWriteWeight s.current_weight ((Bit24.processedCodes codes).map codeOf) ∧
    (Bit8.tokenize "\x1B[1;22m".toList s).2.current_weight = "normal" ∧
    (Bit24.tokenize "\x1B[1;22m".toList s).2.current_weight = "normal" ∧
    (Bit8.tokenize "\x1B[1mab\x1B[31mcd\x1B[22m".toList s).2.current_weight = "normal" ∧
    (Bit24.tokenize "\x1B[1mab\x1B[31mcd\x1B[22m".toList s).2.current_weight = "normal" :=
  ⟨processSegments8_weight codes s, processCodes24_weight codes s, rfl, rfl, rfl, rfl⟩

/-- Counterexample to C14 as stated: in the 24-bit variant the sequence `ESC[38;2;256;0;0m`
gives a span with the fill colour `#1000000`, which has seven digits after the `#`. -/
theorem C14_counterexample :
    Bit24.lines_of_spans ["\x1B[38;2;256;0;0mX".toList] =
      [[⟨"X".toList, "#1000000", "normal", "normal"⟩]] ∧
    isHexColour "#1000000" = false := by
  decide

/-- Claim C14, amended. Every span emitted for every document carries a fill colour of the
form `#RRGGBB`, a weight that is `normal` or `bold` and a slant that is `normal` or `italic`:
in the 8-bit variant always, and in the 24-bit variant whenever the three values of every
decoded `38;2;R;G;B` group of the document are in 0..255. -/
theorem C14_span_attributes (lines : List (List Char)) :
    (∀ spans ∈ Bit8.lines_of_spans lines, ∀ span ∈ spans, WellFormedStyle span.style) ∧
    ((∀ line ∈ lines, ∀ cap ∈ captures line, cap.getLast? = some 'm' →
        Bit24.groupsInRange (getlineAll cap.dropLast) = true) →
      ∀ spans ∈ Bit24.lines_of_spans lines, ∀ span ∈ spans, WellFormedStyle span.style) :=
  ⟨readLines_invariant WellFormedStyle Bit8.interpret lines
      (fun _ _ cap _ t ht => interpret8_wellFormed cap t ht) defaultStyle wellFormed_default,
    fun h => readLines_invariant WellFormedStyle Bit24.interpret lines
      (fun line hline cap hcap t ht => interpret24_wellFormed cap (h line hline cap hcap) t ht)
      defaultStyle wellFormed_default⟩

/-- Witness of C14: a document with a true-colour group whose values are in range. -/
theorem C14_span_attributes_witness :
    (∀ line ∈ ["\x1B[1;38;2;255;0;16mX".toList, "\x1B[3mY".toList],
      ∀ cap ∈ captures line, cap.getLast? = some 'm' →
        Bit24.groupsInRange (getlineAll cap.dropLast) = true) ∧
    Bit24.lines_of_spans ["\x1B[1;38;2;255;0;16mX".toList, "\x1B[3mY".toList] =
      [[⟨"X".toList, "#ff0010", "bold", "normal"⟩],
        [⟨"Y".toList, "#ff0010", "bold", "italic"⟩]] ∧
    (∀ spans ∈ Bit24.lines_of_spans ["\x1B[1;38;2;255;0;16mX".toList, "\x1B[3mY".toList],
      ∀ span ∈ spans, WellFormedStyle span.style) := by
  have hyp : ∀ line ∈ ["\x1B[1;38;2;255;0;16mX".toList, "\x1B[3mY".toList],
      ∀ cap ∈ captures line, cap.getLast? = some 'm' →
        Bit24.groupsInRange (getlineAll cap.dropLast) = true := by
    decide
  exact ⟨hyp, by decide, (C14_span_attributes _).2 hyp⟩

/-- Claim C15. XML escaping of span text: for every span text, the escaped string the writer
builds contains none of the characters `<`, `>`, double quote and single quote, every `&` in
it begins one of the five entities `&amp;` `&lt;` `&gt;` `&quot;` `&apos;`, and replacing the
entities by their characters gives back the original text. -/
theorem C15_xml_escaping (text : List Char) :
    (∀ c ∈ escapeText text,
      c ≠ '<' ∧ c ≠ '>' ∧ c ≠ Char.ofNat 34 ∧ c ≠ Char.ofNat 39) ∧
    (∀ (before after : List Char), escapeText text = before ++ '&' :: after →
      ∃ ent ∈ xmlEntities, ent <+: '&' :: after) ∧
    unescapeText (escapeText text) = text :=
  ⟨escapeText_no_special text, escapeText_amp text, unescapeText_escapeText text⟩

/-- Claim C16. The style is threaded across lines, in both variants: the first line starts
in the default style, the spans of line `k + 1` are those the line gives from the style in
effect after the first `k` lines, and the style in effect after `k + 1` lines is the style at
the end of that line; nothing resets the style at a line break.  Example: after a line that
sets the colour `#CD3131` the next line is in that colour. -/
theorem C16_style_threaded (lines : List (List Char)) (k : Nat) (hk : k < lines.length) :
    styleAfter Bit8.interpret lines 0 = defaultStyle ∧
    (Bit8.lines_of_spans lines)[k]? =
      some (Bit8.tokenize lines[k] (styleAfter Bit8.interpret lines k)).1 ∧
    styleAfter Bit8.interpret lines (k + 1) =
      (Bit8.tokenize lines[k] (styleAfter Bit8.interpret lines k)).2 ∧
    styleAfter Bit24.interpret lines 0 = defaultStyle ∧
    (Bit24.lines_of_spans lines)[k]? =
      some (Bit24.tokenize lines[k] (styleAfter Bit24.interpret lines k)).1 ∧
    styleAfter Bit24.interpret lines (k + 1) =
      (Bit24.tokenize lines[k] (styleAfter Bit24.interpret lines k)).2 ∧
    Bit8.lines_of_spans ["\x1B[31ma".toList, "b".toList] =
      [[⟨"a".toList, "#CD3131", "normal", "normal"⟩],
        [⟨"b".toList, "#CD3131", "normal", "normal"⟩]] ∧
    Bit24.lines_of_spans ["\x1B[31ma".toList, "b".toList] =
      [[⟨"a".toList, "#CD3131", "normal", "normal"⟩],
        [⟨"b".toList, "#CD3131", "normal", "normal"⟩]] :=
  ⟨rfl, (styleAfter_succ Bit8.interpret lines k hk).1,
    (styleAfter_succ Bit8.interpret lines k hk).2, rfl,
    (styleAfter_succ Bit24.interpret lines k hk).1,
    (styleAfter_succ Bit24.interpret lines k hk).2, by decide, by decide⟩

/-- Witness of C16: the second line of a three-line document. -/
theorem C16_style_threaded_witness :
    1 < ["\x1B[1mx".toList, "\x1B[3my".toList, "z".toList].length ∧
    styleAfter Bit8.interpret ["\x1B[1mx".toList, "\x1B[3my".toList, "z".toList] 1 =
      ⟨"#FFFFFF", "bold", "normal"⟩ ∧
    styleAfter Bit8.interpret ["\x1B[1mx".toList, "\x1B[3my".toList, "z".toList] 2 =
      ⟨"#FFFFFF", "bold", "italic"⟩ ∧
    (Bit8.lines_of_spans ["\x1B[1mx".toList, "\x1B[3my".toList, "z".toList])[1]? =
      some [⟨"y".toList, "#FFFFFF", "bold", "italic"⟩] := by
  have h := C16_style_threaded ["\x1B[1mx".toList, "\x1B[3my".toList, "z".toList] 1
    (by decide)
  exact ⟨by decide, by decide, h.2.2.1.trans (by decide), h.2.1.trans (by decide)⟩

/-- Counterexample to C17 as stated: for a document of 107374182 empty lines the product
`20 * 107374182 + 20` does not fit an `int`, and the height is `-2147483636`, in both
variants. -/
theorem C17_counterexample :
    (writeSVG (Bit8.lines_of_spans (List.replicate 107374182 []))).height = -2147483636 ∧
    (writeSVG (Bit24.lines_of_spans (List.replicate 107374182 []))).height = -2147483636 ∧
    (-2147483636 : Int) ≠ 20 * 107374182 + 20 := by
  refine ⟨?_, ?_, by decide⟩
  · unfold Bit8.lines_of_spans
    rw [writeSVG_height, List.length_replicate]
    decide
  · unfold Bit24.lines_of_spans
    rw [writeSVG_height, List.length_replicate]
    decide

/-- Claim C17, amended. Canvas size, for every document of at most 107374181 lines, none
longer than 223696211 characters (so that both dimensions fit an `int`), in both variants:
the height is `20 * (number of lines) + 20`, there is one text element per line, line `k`
(from 1) at the baseline `20 * k`, and the width is 20 plus the integer part of 9.6 times the
largest per-line total of span text lengths.  For the empty input width and height are 20
and there is no text element. -/
theorem C17_canvas_size (lines : List (List Char)) (hlines : lines.length ≤ 107374181)
    (hlong : ∀ line ∈ lines, line.length ≤ 223696211) :
    (writeSVG (Bit8.lines_of_spans lines)).height = 20 * (lines.length : Int) + 20 ∧
    (writeSVG (Bit8.lines_of_spans lines)).width =
      some (20 + ((48 * largestTotal (Bit8.lines_of_spans lines) / 5 : Nat) : Int)) ∧
    (writeSVG (Bit8.lines_of_spans lines)).texts.length = lines.length ∧
    (∀ k, k < lines.length →
      ((writeSVG (Bit8.lines_of_spans lines)).texts[k]?).map TextElement.y =
        some (20 * ((k : Int) + 1))) ∧
    (writeSVG (Bit24.lines_of_spans lines)).height = 20 * (lines.length : Int) + 20 ∧
    (writeSVG (Bit24.lines_of_spans lines)).width =
      some (20 + ((48 * largestTotal (Bit24.lines_of_spans lines) / 5 : Nat) : Int)) ∧
    (writeSVG (Bit24.lines_of_spans lines)).texts.length = lines.length ∧
    (∀ k, k < lines.length →
      ((writeSVG (Bit24.lines_of_spans lines)).texts[k]?).map TextElement.y =
        some (20 * ((k : Int) + 1))) ∧
    Bit8.generateSVG [] = ⟨some 20, 20, []⟩ ∧
    Bit24.generateSVG [] = ⟨some 20, 20, []⟩ := by
  have key : ∀ interp : List Char → Style → Style,
      (writeSVG (lines_of_spans interp lines)).height = 20 * (lines.length : Int) + 20 ∧
      (writeSVG (lines_of_spans interp lines)).width =
        some (20 + ((48 * largestTotal (lines_of_spans interp lines) / 5 : Nat) : Int)) ∧
      (writeSVG (lines_of_spans interp lines)).texts.length = lines.length ∧
      (∀ k, k < lines.length →
        ((writeSVG (lines_of_spans interp lines)).texts[k]?).map TextElement.y =
          some (20 * ((k : Int) + 1))) := by
    intro interp
    have hlen : (lines_of_spans interp lines).length = lines.length :=
      readLines_length interp lines defaultStyle
    have hmax : largestTotal (lines_of_spans interp lines) ≤ 223696211 :=
      largestTotal_le _ _ (readLines_lineTotal interp _ lines hlong defaultStyle)
    refine ⟨?_, svg_width_eq _ hmax, ?_, ?_⟩
    · show svg_height _ = _
      rw [svg_height_eq _ (by rw [hlen]; exact hlines), hlen]
    · show (writeLines 20 _).length = _
      rw [writeLines_length, hlen]
    · intro k hk
      show ((writeLines 20 _)[k]?).map TextElement.y = _
      rw [writeLines_getElem _ 20 k (by rw [hlen]; exact hk) (by decide)
        (by rw [hlen]; omega)]
      simp only [Option.map_some', Option.some.injEq]
      omega
  have hempty : ∀ interp : List Char → Style → Style,
      writeSVG (lines_of_spans interp (fileLines [])) = ⟨some 20, 20, []⟩ := by
    intro interp
    have h0 : lines_of_spans interp (fileLines []) = [] := rfl
    rw [h0]
    show SvgDocument.mk (svg_width []) (svg_height []) (writeLines 20 []) = _
    rw [svg_width_eq [] (by decide), svg_height_eq [] (by decide)]
    rfl
  exact ⟨(key _).1, (key _).2.1, (key _).2.2.1, (key _).2.2.2, (key _).1, (key _).2.1,
    (key _).2.2.1, (key _).2.2.2, hempty _, hempty _⟩

/-- Witness of C17: a document of two lines; the longer one has five characters of text. -/
theorem C17_canvas_size_witness :
    ["\x1B[31mHello".toList, "ab".toList].length ≤ 107374181 ∧
    (∀ line ∈ ["\x1B[31mHello".toList, "ab".toList], line.length ≤ 223696211) ∧
    (writeSVG (Bit8.lines_of_spans ["\x1B[31mHello".toList, "ab".toList])).height = 60 ∧
    (writeSVG (Bit8.lines_of_spans ["\x1B[31mHello".toList, "ab".toList])).width = some 68 ∧
    ((writeSVG (Bit8.lines_of_spans ["\x1B[31mHello".toList, "ab".toList])).texts[1]?).map
      TextElement.y = some 40 := by
  have hlong : ∀ line ∈ ["\x1B[31mHello".toList, "ab".toList], line.length ≤ 223696211 := by
    decide
  have h := C17_canvas_size ["\x1B[31mHello".toList, "ab".toList] (by decide) hlong
  exact ⟨by decide, hlong, h.1.trans (by decide), h.2.1.trans (by decide),
    (h.2.2.2.1 1 (by decide)).trans (by decide)⟩

/-- Counterexample to C18 as stated: in `38;2;38;5;7` the second 38 is followed by two
parameters only, so it is not followed by the token `2` and three further parameters, but it
is the R operand of the group decoded at the first 38 and is never processed as a code. The
sequence gives the colour `#260507`; the same list with that 38 removed, `38;2;5;7`, decodes
no group and leaves the default style. -/
theorem C18_counterexample :
    stoi (if "38".toList.isEmpty then ['0'] else "38".toList) = Except.ok 38 ∧
    (¬ ∃ r g b more rv gv bv,
      ["5".toList, "7".toList] = ['2'] :: r :: g :: b :: more ∧
      stoi r = Except.ok rv ∧ stoi g = Except.ok gv ∧ stoi b = Except.ok bv) ∧
    (Bit24.visited (["38".toList, "2".toList] ++ "38".toList ::
      ["5".toList, "7".toList]))[2]? = some false ∧
    Bit24.processCodes (["38".toList, "2".toList] ++ "38".toList ::
      ["5".toList, "7".toList]) defaultStyle = ⟨"#260507", "normal", "normal"⟩ ∧
    Bit24.processCodes (["38".toList, "2".toList] ++
      ["5".toList, "7".toList]) defaultStyle = defaultStyle ∧
    Bit24.tokenize "\x1B[38;2;38;5;7m".toList defaultStyle =
      ([], ⟨"#260507", "normal", "normal"⟩) ∧
    Bit24.tokenize "\x1B[38;2;5;7m".toList defaultStyle = ([], defaultStyle) ∧
    (Bit24.tokenize "\x1B[38;2;38;5;7m".toList defaultStyle).2 ≠
      (Bit24.tokenize "\x1B[38;2;5;7m".toList defaultStyle).2 := by
  refine ⟨rfl, ?_, by decide, by decide, by decide, by decide, by decide, by decide⟩
  rintro ⟨r, g, b, more, rv, gv, bv, hl, -⟩
  simp only [List.cons.injEq] at hl
  exact absurd hl.1 (by decide)

/-- Claim C18, amended. An undecodable extended-colour group is atomic in the 24-bit variant:
when a parameter that parses to 38 and that the loop processes as a code (it is not an
operand of a group decoded before it) is not followed by the token `2` and three further
parameters that all parse as integers, the 38 changes nothing and the loop goes on at the
next parameter, so the resulting style is that of the same parameter list with that 38
removed. -/
theorem C18_undecodable_group (xs rest : List (List Char)) (c : List Char) (s : Style)
    (hc : stoi (if c.isEmpty then ['0'] else c) = Except.ok 38)
    (hbad : ¬ ∃ r g b more rv gv bv, rest = ['2'] :: r :: g :: b :: more ∧
      stoi r = Except.ok rv ∧ stoi g = Except.ok gv ∧ stoi b = Except.ok bv)
    (hvisited : (Bit24.visited (xs ++ c :: rest))[xs.length]? = some true) :
    Bit24.processSegment c s = s ∧
    Bit24.processCodes (c :: rest) s = Bit24.processCodes rest s ∧
    Bit24.processCodes (xs ++ c :: rest) s = Bit24.processCodes (xs ++ rest) s := by
  have hd := Bit24.decodesGroup_of_not_followed c rest hbad
  have hseg : Bit24.processSegment c s = s := by
    simp only [Bit24.processSegment, hc]
    rfl
  refine ⟨hseg, ?_, Bit24.remove_undecoded c rest hc hd xs.length xs s (Nat.le_refl _) hvisited⟩
  rw [Bit24.processCodes_cons_plain c rest s hd, hseg]

/-- Witness of C18: `1;38;2;7;?;9;3`, where the G operand does not parse. -/
theorem C18_undecodable_group_witness :
    stoi (if "38".toList.isEmpty then ['0'] else "38".toList) = Except.ok 38 ∧
    (Bit24.visited (["1".toList] ++ "38".toList ::
      ["2".toList, "7".toList, "?".toList, "9".toList, "3".toList]))[1]? = some true ∧
    Bit24.processCodes (["1".toList] ++ "38".toList ::
      ["2".toList, "7".toList, "?".toList, "9".toList, "3".toList]) defaultStyle =
      ⟨"#FFFFFF", "bold", "italic"⟩ ∧
    Bit24.processCodes (["1".toList] ++
      ["2".toList, "7".toList, "?".toList, "9".toList, "3".toList]) defaultStyle =
      ⟨"#FFFFFF", "bold", "italic"⟩ := by
  have hbad : ¬ ∃ r g b more rv gv bv,
      ["2".toList, "7".toList, "?".toList, "9".toList, "3".toList] =
        ['2'] :: r :: g :: b :: more ∧
      stoi r = Except.ok rv ∧ stoi g = Except.ok gv ∧ stoi b = Except.ok bv := by
    rintro ⟨r, g, b, more, rv, gv, bv, hl, -, hg, -⟩
    simp only [List.cons.injEq] at hl
    rw [← hl.2.2.1] at hg
    have : stoi "?".toList = Except.error StoiError.invalid_argument := rfl
    rw [this] at hg
    cases hg
  have h := C18_undecodable_group ["1".toList] _ "38".toList defaultStyle rfl hbad (by decide)
  exact ⟨rfl, by decide, by decide, h.2.2.symm.trans (by decide)⟩

/-- Claim C19. The two variants agree outside true colour: for every document in which no SGR
sequence has a parameter that parses to 38 and is immediately followed by the token `2` and
at least three further parameters, the 8-bit and the 24-bit program give the same lines of
spans, hence the same document. -/
theorem C19_variants_agree (lines : List (List Char))
    (h : ∀ line ∈ lines, ∀ cap ∈ captures line, cap.getLast? = some 'm' →
      hasTrueColourGroup (getlineAll cap.dropLast) = false) :
    Bit8.lines_of_spans lines = Bit24.lines_of_spans lines ∧
    writeSVG (Bit8.lines_of_spans lines) = writeSVG (Bit24.lines_of_spans lines) := by
  have hl : Bit8.lines_of_spans lines = Bit24.lines_of_spans lines := by
    unfold Bit8.lines_of_spans Bit24.lines_of_spans lines_of_spans
    rw [readLines_congr Bit8.interpret Bit24.interpret lines
      (fun line hline cap hcap t => interpret24_eq_8 cap (h line hline cap hcap) t)]
  exact ⟨hl, by rw [hl]⟩

/-- Witness of C19: a palette group, and a `38;2` with too few parameters after it. -/
theorem C19_variants_agree_witness :
    (∀ line ∈ ["\x1B[1;38;5;9mab\x1B[2J".toList, "\x1B[38;2;7;8mcd".toList],
      ∀ cap ∈ captures line, cap.getLast? = some 'm' →
        hasTrueColourGroup (getlineAll cap.dropLast) = false) ∧
    Bit8.lines_of_spans ["\x1B[1;38;5;9mab\x1B[2J".toList, "\x1B[38;2;7;8mcd".toList] =
      Bit24.lines_of_spans ["\x1B[1;38;5;9mab\x1B[2J".toList, "\x1B[38;2;7;8mcd".toList] := by
  have hyp : ∀ line ∈ ["\x1B[1;38;5;9mab\x1B[2J".toList, "\x1B[38;2;7;8mcd".toList],
      ∀ cap ∈ captures line, cap.getLast? = some 'm' →
        hasTrueColourGroup (getlineAll cap.dropLast) = false := by
    decide
  exact ⟨hyp, (C19_variants_agree _ hyp).1⟩

/-- Claim C20. A parameterless SGR sequence does not reset: the empty parameter string gives
zero parameters, and for every prior style `ESC[m` leaves colour, weight and slant unchanged
and gives no span, in both variants. -/
theorem C20_parameterless_sequence (s : Style) :
    getlineAll [] = [] ∧
    Bit8.tokenize "\x1B[m".toList s = ([], s) ∧
    Bit24.tokenize "\x1B[m".toList s = ([], s) :=
  ⟨rfl, rfl, rfl⟩

end AnsiSvg
